import Mathlib

/-!
Verification of the FileRename batch-rename tool.

This file gives a shallow embedding of the core of the repository
(`file_operations.py`, `undo_manager.py`, the progress computation of
`ui.py`) and proves the frozen specification claims against it.

Modelling conventions, stated once here:

* A filesystem path is an absolute, normalised path given as its list of
  components (`["a", "b", "f.txt"]` stands for `/a/b/f.txt`).  On such
  paths `os.path.abspath` is the identity, `os.path.dirname` drops the
  final component, and `os.path.join dir name` for a bare file name (no
  separator inside, which the sanitizer guarantees) appends one component.
* The filesystem is an explicit state: an association list from file
  paths to their contents plus a list of directory paths.  A path counts
  as a directory when it is listed or when it is a proper prefix of an
  existing file path.  `os.path.samefile` on two existing directories is
  path equality (no symlinks or hard links are modelled); like the Python
  call it raises `OSError` when an argument does not exist.
* Permissions are not modelled, so the `PermissionError` branches of the
  source are unreachable in the model; the `OSError` branches fire when a
  primitive is applied to a missing source.  Error objects carry their
  `str(e)` message, built like the Python f-strings.
-/

/-- An absolute normalised filesystem path, one component per entry. -/
abbrev FPath := List String

/-- Models `os.path.dirname` on a normalised absolute path. -/
def dirnameP (p : FPath) : FPath := p.dropLast

/-- Models `os.path.join directory new_name` for a bare file name. -/
def joinP (d : FPath) (name : String) : FPath := d ++ [name]

/-- Renders a path for use inside error messages. -/
def pathToString (p : FPath) : String := p.foldl (fun acc c => acc ++ "/" ++ c) ""

/-- The filesystem state: file contents plus known directories. -/
structure FS where
  files : List (FPath × String)
  dirs : List FPath
deriving DecidableEq

/-- Content of the file at `p`, if any (`none` = no such file). -/
def FS.content (fs : FS) (p : FPath) : Option String := fs.files.lookup p

/-- Models `os.path.isfile`. -/
def FS.isFile (fs : FS) (p : FPath) : Bool := (fs.content p).isSome

/-- Models `os.path.isdir`: listed as a directory, or a proper prefix of
an existing file path. -/
def FS.isDir (fs : FS) (p : FPath) : Bool :=
  fs.dirs.contains p || fs.files.any (fun f => decide (p ≠ f.1) && p.isPrefixOf f.1)

/-- Models `os.path.exists`. -/
def FS.pathExists (fs : FS) (p : FPath) : Bool := fs.isFile p || fs.isDir p

/-- Removes the file at `p` (used by the `os.rename` model). -/
def FS.removeFile (fs : FS) (p : FPath) : FS :=
  { fs with files := fs.files.filter (fun f => f.1 != p) }

/-- Adds a file at `p` with content `c` (call sites guarantee `p` is not
an existing path, re-checked by the executor). -/
def FS.addFile (fs : FS) (p : FPath) (c : String) : FS :=
  { fs with files := (p, c) :: fs.files }

/-- The exception taxonomy raised by `FileOperations.rename_file`;
each constructor carries its `str(e)` message. -/
inductive RenameError where
  | fileNotFound (msg : String)
  | notADirectory (msg : String)
  | fileExistsErr (msg : String)
  | permissionDenied (msg : String)
  | osError (msg : String)
deriving DecidableEq

/-- Models Python `str(e)` on a caught exception. -/
def RenameError.message : RenameError → String
  | .fileNotFound m => m
  | .notADirectory m => m
  | .fileExistsErr m => m
  | .permissionDenied m => m
  | .osError m => m

/-- Shallow embedding of `FileOperations.rename_file`
(src/file_operations.py, lines 153-197): validates an optional target
directory, treats an unchanged resolved path as a successful no-op,
re-checks that the destination does not exist, then either renames
(same directory: source removed) or copies with metadata
(`shutil.copy2`, different directory: source kept). -/
def rename_file (fs : FS) (file_path : FPath) (new_name : String)
    (target_dir : Option FPath) : Except RenameError (FS × Bool) := do
  let directory ←
    match target_dir with
    | none => pure (dirnameP file_path)
    | some td =>
      if fs.pathExists td = false then
        throw (.fileNotFound ("目标文件夹 " ++ pathToString td ++ " 不存在"))
      else if fs.isDir td = false then
        throw (.notADirectory (pathToString td ++ " 不是有效的目录"))
      else pure td
  let new_path := joinP directory new_name
  if file_path = new_path then
    return (fs, true)
  if fs.pathExists new_path = true then
    throw (.fileExistsErr ("文件 " ++ new_name ++ " 已存在于目标文件夹"))
  match target_dir with
  | none =>
    match fs.content file_path with
    | some c => return ((fs.removeFile file_path).addFile new_path c, true)
    | none => throw (.osError ("重命名/移动文件时出错: " ++ pathToString file_path))
  | some td =>
    if fs.pathExists (dirnameP file_path) = false then
      throw (.osError ("重命名/移动文件时出错: " ++ pathToString (dirnameP file_path)))
    else if dirnameP file_path = td then
      match fs.content file_path with
      | some c => return ((fs.removeFile file_path).addFile new_path c, true)
      | none => throw (.osError ("重命名/移动文件时出错: " ++ pathToString file_path))
    else
      match fs.content file_path with
      | some c => return (fs.addFile new_path c, true)
      | none => throw (.osError ("重命名/移动文件时出错: " ++ pathToString file_path))

lemma FS.content_addFile (fs : FS) (p q : FPath) (c : String) :
    (fs.addFile p c).content q = if q = p then some c else fs.content q := by
  by_cases h : q = p
  · simp [FS.addFile, FS.content, List.lookup, h]
  · have hb : (q == p) = false := by simpa using h
    simp [FS.addFile, FS.content, List.lookup, hb, h]

lemma lookup_filter_ne (l : List (FPath × String)) (p q : FPath) (h : q ≠ p) :
    (l.filter (fun f => f.1 != p)).lookup q = l.lookup q := by
  induction l with
  | nil => simp
  | cons a tl ih =>
    by_cases hq : q = a.1
    · subst hq
      have : (a.1 != p) = true := by simpa using h
      simp [List.filter, this, List.lookup]
    · by_cases hp : a.1 = p
      · subst hp
        have : (a.1 != a.1) = false := by simp
        simp only [List.filter, this]
        have : (q == a.1) = false := by simpa using hq
        rw [ih]
        simp [List.lookup, this]
      · have hf : (a.1 != p) = true := by simpa using hp
        have hqa : (q == a.1) = false := by simpa using hq
        simp only [List.filter, hf]
        simp [List.lookup, hqa, ih]

lemma FS.content_removeFile_self (fs : FS) (p : FPath) :
    (fs.removeFile p).content p = none := by
  simp only [FS.removeFile, FS.content]
  induction fs.files with
  | nil => simp
  | cons a tl ih =>
    by_cases hp : a.1 = p
    · subst hp
      have : (a.1 != a.1) = false := by simp
      simpa [List.filter, this] using ih
    · have hf : (a.1 != p) = true := by simpa using hp
      have hpa : (p == a.1) = false := by simpa using (Ne.symm hp)
      simp [List.filter, hf, List.lookup, hpa, ih]

lemma FS.pathExists_of_isDir (fs : FS) (p : FPath) (h : fs.isDir p = true) :
    fs.pathExists p = true := by
  simp [FS.pathExists, h]

/-- C1: a cross-directory apply (target directory given and different from
the source file's directory) copies the file with metadata: on success the
source path still exists with unchanged content and the destination holds
the copy.  A same-directory apply (no target directory, or a target
directory `samefile`-equal to the source's directory) uses the rename
primitive: on success the source path no longer exists. -/
theorem C1_cross_copies_same_dir_renames (fs : FS) (fp : FPath) (nm : String)
    (td : FPath) (c : String) :
    (fs.isDir td = true → fs.pathExists (dirnameP fp) = true → td ≠ dirnameP fp →
      fp ≠ joinP td nm → fs.pathExists (joinP td nm) = false → fs.content fp = some c →
      rename_file fs fp nm (some td) = .ok (fs.addFile (joinP td nm) c, true) ∧
      (fs.addFile (joinP td nm) c).content fp = some c ∧
      (fs.addFile (joinP td nm) c).content (joinP td nm) = some c) ∧
    (fp ≠ joinP (dirnameP fp) nm → fs.pathExists (joinP (dirnameP fp) nm) = false →
      fs.content fp = some c →
      rename_file fs fp nm none =
        .ok ((fs.removeFile fp).addFile (joinP (dirnameP fp) nm) c, true) ∧
      ((fs.removeFile fp).addFile (joinP (dirnameP fp) nm) c).content fp = none) ∧
    (fs.isDir (dirnameP fp) = true → fp ≠ joinP (dirnameP fp) nm →
      fs.pathExists (joinP (dirnameP fp) nm) = false → fs.content fp = some c →
      rename_file fs fp nm (some (dirnameP fp)) =
        .ok ((fs.removeFile fp).addFile (joinP (dirnameP fp) nm) c, true) ∧
      ((fs.removeFile fp).addFile (joinP (dirnameP fp) nm) c).content fp = none) := by
  refine ⟨?_, ?_, ?_⟩
  · intro hdir hsrc hne hfp hnp hc
    have hpe := fs.pathExists_of_isDir td hdir
    have hdt : ¬dirnameP fp = td := fun hx => hne hx.symm
    refine ⟨?_, ?_, ?_⟩
    · simp [rename_file, bind, Except.bind, pure, Except.pure, hpe, hdir, hfp, hnp,
        hsrc, hdt, hc]
    · rw [FS.content_addFile]
      simp [hfp, hc]
    · rw [FS.content_addFile]
      simp
  · intro hfp hnp hc
    refine ⟨?_, ?_⟩
    · simp [rename_file, bind, Except.bind, pure, Except.pure, hfp, hnp, hc]
    · rw [FS.content_addFile]
      simp [hfp, FS.content_removeFile_self]
  · intro hdir hfp hnp hc
    have hpe := fs.pathExists_of_isDir (dirnameP fp) hdir
    refine ⟨?_, ?_⟩
    · simp [rename_file, bind, Except.bind, pure, Except.pure, hdir, hpe, hfp, hnp, hc]
    · rw [FS.content_addFile]
      simp [hfp, FS.content_removeFile_self]

/-- A sample filesystem: one file `/a/f.txt` and directories `/a`, `/b`. -/
def fsSample : FS :=
  { files := [(["a", "f.txt"], "data")], dirs := [["a"], ["b"]] }

/-- Witness for C1 at a concrete filesystem: the cross-directory apply to
`/b` keeps `/a/f.txt` with its content, and the two same-directory applies
remove the source path. -/
theorem C1_cross_copies_same_dir_renames_witness :
    (rename_file fsSample ["a", "f.txt"] "g.txt" (some ["b"]) =
        .ok (fsSample.addFile ["b", "g.txt"] "data", true) ∧
      (fsSample.addFile ["b", "g.txt"] "data").content ["a", "f.txt"] = some "data" ∧
      (fsSample.addFile ["b", "g.txt"] "data").content ["b", "g.txt"] = some "data") ∧
    (rename_file fsSample ["a", "f.txt"] "h.txt" none =
        .ok ((fsSample.removeFile ["a", "f.txt"]).addFile ["a", "h.txt"] "data", true) ∧
      ((fsSample.removeFile ["a", "f.txt"]).addFile ["a", "h.txt"] "data").content
        ["a", "f.txt"] = none) ∧
    (rename_file fsSample ["a", "f.txt"] "h.txt" (some ["a"]) =
        .ok ((fsSample.removeFile ["a", "f.txt"]).addFile ["a", "h.txt"] "data", true) ∧
      ((fsSample.removeFile ["a", "f.txt"]).addFile ["a", "h.txt"] "data").content
        ["a", "f.txt"] = none) := by
  have h := C1_cross_copies_same_dir_renames fsSample ["a", "f.txt"] "g.txt" ["b"] "data"
  have h2 := C1_cross_copies_same_dir_renames fsSample ["a", "f.txt"] "h.txt" ["b"] "data"
  exact ⟨h.1 (by decide) (by decide) (by decide) (by decide) (by decide) rfl,
    h2.2.1 (by decide) (by decide) rfl,
    h2.2.2 (by decide) (by decide) (by decide) rfl⟩

/-- C9: when the resolved destination equals the resolved source path,
`rename_file` reports success without touching the filesystem and without
checking that the source exists (the state `fs` is arbitrary, in
particular the source file may be absent). -/
theorem C9_noop_when_destination_equals_source (fs : FS) (fp : FPath)
    (nm : String) (td : FPath) :
    (joinP (dirnameP fp) nm = fp → rename_file fs fp nm none = .ok (fs, true)) ∧
    (fs.isDir td = true → joinP td nm = fp →
      rename_file fs fp nm (some td) = .ok (fs, true)) := by
  constructor
  · intro h
    have hc : fp = joinP (dirnameP fp) nm := h.symm
    simp only [rename_file, bind, Except.bind, pure, Except.pure]
    rw [if_pos hc]
  · intro hdir h
    have hpe := fs.pathExists_of_isDir td hdir
    have hc : fp = joinP td nm := h.symm
    simp only [rename_file, bind, Except.bind, pure, Except.pure, hdir, hpe,
      Bool.true_eq_false, if_false]
    rw [if_pos hc]

/-- An empty filesystem with one known directory `/a` and no files. -/
def fsNoFiles : FS := { files := [], dirs := [["a"]] }

/-- Witness for C9: renaming the non-existent `/a/x` to its own name
succeeds as a no-op even though no file exists at the source path. -/
theorem C9_noop_when_destination_equals_source_witness :
    fsNoFiles.isFile ["a", "x"] = false ∧
    rename_file fsNoFiles ["a", "x"] "x" none = .ok (fsNoFiles, true) ∧
    rename_file fsNoFiles ["a", "x"] "x" (some ["a"]) = .ok (fsNoFiles, true) := by
  have h := C9_noop_when_destination_equals_source fsNoFiles ["a", "x"] "x" ["a"]
  exact ⟨by decide, h.1 (by decide), h.2 (by decide) (by decide)⟩

/-- Failure reason recorded by the planning pass for an intra-batch
destination collision (`"目标文件名冲突"`). -/
def dupMsg : String := "目标文件名冲突"

/-- Failure reason recorded by the planning pass when the destination
already exists on the filesystem (`"目标文件已存在"`). -/
def existsMsg : String := "目标文件已存在"

/-- Resolved destination of one mapping: `target_dir/new_name` when a
target directory is given, else `dirname(source)/new_name`. -/
def destOf (target_dir : Option FPath) (m : FPath × String) : FPath :=
  joinP (match target_dir with | none => dirnameP m.1 | some td => td) m.2

/-- State threaded through the first (planning) pass of
`FileOperations.batch_rename`: the set of destination paths already
claimed by earlier accepted mappings, and the failures so far. -/
structure PlanState where
  target_files : List FPath
  failures : List (FPath × String)
deriving DecidableEq

/-- One step of the planning pass (src/file_operations.py, lines
273-291): reject on an already-claimed destination, then on an existing
destination that is not the mapping's own source, else claim it. -/
def planStep (fs : FS) (target_dir : Option FPath) (s : PlanState)
    (m : FPath × String) : PlanState :=
  if destOf target_dir m ∈ s.target_files then
    { s with failures := s.failures ++ [(m.1, dupMsg)] }
  else if fs.pathExists (destOf target_dir m) = true ∧ m.1 ≠ destOf target_dir m then
    { s with failures := s.failures ++ [(m.1, existsMsg)] }
  else
    { s with target_files := s.target_files ++ [destOf target_dir m] }

/-- The whole planning pass, walking the mappings in input order. -/
def planPass (fs : FS) (target_dir : Option FPath)
    (file_mappings : List (FPath × String)) : PlanState :=
  file_mappings.foldl (planStep fs target_dir) ⟨[], []⟩

/-- State threaded through the second (execution) pass of
`batch_rename`. -/
structure ExecState where
  fs : FS
  successes : List (FPath × FPath)
  failures : List (FPath × String)
deriving DecidableEq

/-- One step of the execution pass (src/file_operations.py, lines
293-309): skip a source already present in the failure list, otherwise
run `rename_file`, catching any exception into the failure list. -/
def execStep (target_dir : Option FPath) (s : ExecState)
    (m : FPath × String) : ExecState :=
  if s.failures.any (fun f => f.1 == m.1) then s
  else
    match rename_file s.fs m.1 m.2 target_dir with
    | .ok (fs', success) =>
      if success then
        { s with fs := fs', successes := s.successes ++ [(m.1, destOf target_dir m)] }
      else { s with fs := fs' }
    | .error e => { s with failures := s.failures ++ [(m.1, e.message)] }

/-- Shallow embedding of `FileOperations.batch_rename`
(src/file_operations.py, lines 252-311): validate the target directory,
run the planning pass, then execute every non-failed mapping in input
order with per-item exception capture. -/
def batch_rename (fs : FS) (file_mappings : List (FPath × String))
    (target_dir : Option FPath) :
    Except RenameError (FS × List (FPath × FPath) × List (FPath × String)) := do
  match target_dir with
  | none => pure ()
  | some td =>
    if fs.pathExists td = false then
      throw (.fileNotFound ("目标文件夹 " ++ pathToString td ++ " 不存在"))
    else if fs.isDir td = false then
      throw (.notADirectory (pathToString td ++ " 不是有效的目录"))
    else pure ()
  let plan := planPass fs target_dir file_mappings
  let final := file_mappings.foldl (execStep target_dir) ⟨fs, [], plan.failures⟩
  return (final.fs, final.successes, final.failures)

lemma rename_file_snd_true (fs : FS) (fp : FPath) (nm : String) (td : Option FPath)
    (r : FS × Bool) (h : rename_file fs fp nm td = .ok r) : r.2 = true := by
  rcases td with _ | td <;>
    simp only [rename_file, bind, Except.bind, pure, Except.pure] at h <;>
    (repeat' split at h) <;> (first | (cases h; rfl) | simp_all)

lemma execStep_failures_mono (td : Option FPath) (s : ExecState) (m : FPath × String)
    (f : FPath × String) (hf : f ∈ s.failures) : f ∈ (execStep td s m).failures := by
  unfold execStep
  split
  · exact hf
  · split
    · split
      · exact hf
      · exact hf
    · exact List.mem_append_left _ hf

lemma execStep_successes_mono (td : Option FPath) (s : ExecState) (m : FPath × String)
    (f : FPath × FPath) (hf : f ∈ s.successes) : f ∈ (execStep td s m).successes := by
  unfold execStep
  split
  · exact hf
  · split
    · split
      · exact List.mem_append_left _ hf
      · exact hf
    · exact hf

lemma exec_fold_failures_mono (td : Option FPath) (maps : List (FPath × String)) :
    ∀ (s : ExecState) (f : FPath × String), f ∈ s.failures →
      f ∈ ((maps.foldl (execStep td) s).failures) := by
  induction maps with
  | nil => intro s f hf; exact hf
  | cons a rest ih =>
    intro s f hf
    exact ih _ f (execStep_failures_mono td s a f hf)

lemma exec_fold_successes_mono (td : Option FPath) (maps : List (FPath × String)) :
    ∀ (s : ExecState) (f : FPath × FPath), f ∈ s.successes →
      f ∈ ((maps.foldl (execStep td) s).successes) := by
  induction maps with
  | nil => intro s f hf; exact hf
  | cons a rest ih =>
    intro s f hf
    exact ih _ f (execStep_successes_mono td s a f hf)

lemma execStep_covers (td : Option FPath) (s : ExecState) (m : FPath × String) :
    m.1 ∈ ((execStep td s m).successes.map Prod.fst) ∨
    m.1 ∈ ((execStep td s m).failures.map Prod.fst) := by
  unfold execStep
  split
  · right
    rename_i hsk
    rcases List.any_eq_true.mp hsk with ⟨f, hf, hbeq⟩
    exact List.mem_map.mpr ⟨f, hf, (eq_of_beq hbeq)⟩
  · split
    · rename_i fs' succ heq
      have hb := rename_file_snd_true s.fs m.1 m.2 td (fs', succ) heq
      simp only at hb
      subst hb
      left
      simp
    · right
      simp

lemma exec_fold_covers (td : Option FPath) (maps : List (FPath × String)) :
    ∀ (s : ExecState) (m : FPath × String), m ∈ maps →
      m.1 ∈ ((maps.foldl (execStep td) s).successes.map Prod.fst) ∨
      m.1 ∈ ((maps.foldl (execStep td) s).failures.map Prod.fst) := by
  induction maps with
  | nil => intro s m hm; cases hm
  | cons a rest ih =>
    intro s m hm
    rcases List.mem_cons.mp hm with rfl | hm
    · rcases execStep_covers td s m with hs | hf
      · left
        rcases List.mem_map.mp hs with ⟨f, hfmem, hfst⟩
        exact List.mem_map.mpr ⟨f, exec_fold_successes_mono td rest _ f hfmem, hfst⟩
      · right
        rcases List.mem_map.mp hf with ⟨f, hfmem, hfst⟩
        exact List.mem_map.mpr ⟨f, exec_fold_failures_mono td rest _ f hfmem, hfst⟩
    · exact ih _ m hm

/-- A directory `/d` holding files `a`, `b`, `c` and an unrelated
pre-existing file `bb`. -/
def fsBatch : FS :=
  { files := [(["d", "a"], "A"), (["d", "b"], "B"), (["d", "c"], "C"), (["d", "bb"], "X")],
    dirs := [["d"]] }

/-- Three mappings where only item 2's destination (`bb`) collides with a
pre-existing unrelated file. -/
def batchMaps : List (FPath × String) :=
  [(["d", "a"], "aa"), (["d", "b"], "bb"), (["d", "c"], "cc")]

/-- Three mappings where item 2's source does not exist, so its failure
arises as a caught execution-time exception rather than a planning
rejection. -/
def batchMapsExc : List (FPath × String) :=
  [(["d", "a"], "aa"), (["d", "nope"], "xx"), (["d", "c"], "cc")]

/-- C4: `batch_rename` never aborts once the target directory check has
passed (per-item failures are caught into the failure list), every
mapping's source ends up in the succeeded or the failed list, and on the
concrete 3-mapping batch whose item 2 collides with a pre-existing file
the result is 2 successes and 1 failure with items 1 and 3 actually
renamed on the filesystem; a caught execution-time exception behaves the
same way. -/
theorem C4_partial_failure_isolation :
    (∀ (fs : FS) (maps : List (FPath × String)), ∃ r, batch_rename fs maps none = .ok r) ∧
    (∀ (fs : FS) (maps : List (FPath × String)) (td : FPath), fs.isDir td = true →
      ∃ r, batch_rename fs maps (some td) = .ok r) ∧
    (∀ (fs : FS) (maps : List (FPath × String)) (td : Option FPath) r,
      batch_rename fs maps td = .ok r → ∀ m ∈ maps,
        m.1 ∈ r.2.1.map Prod.fst ∨ m.1 ∈ r.2.2.map Prod.fst) ∧
    (∃ ffs, batch_rename fsBatch batchMaps none =
        .ok (ffs, [(["d", "a"], ["d", "aa"]), (["d", "c"], ["d", "cc"])],
          [(["d", "b"], existsMsg)]) ∧
      ffs.content ["d", "aa"] = some "A" ∧ ffs.content ["d", "cc"] = some "C" ∧
      ffs.content ["d", "a"] = none ∧ ffs.content ["d", "c"] = none ∧
      ffs.content ["d", "b"] = some "B") ∧
    (∃ ffs2, batch_rename fsBatch batchMapsExc none =
        .ok (ffs2, [(["d", "a"], ["d", "aa"]), (["d", "c"], ["d", "cc"])],
          [(["d", "nope"], "重命名/移动文件时出错: " ++ pathToString ["d", "nope"])])) := by
  refine ⟨?_, ?_, ?_, ?_, ?_⟩
  · intro fs maps
    exact ⟨_, rfl⟩
  · intro fs maps td h
    have hpe := fs.pathExists_of_isDir td h
    have hrun : batch_rename fs maps (some td) = .ok
        ((maps.foldl (execStep (some td)) ⟨fs, [], (planPass fs (some td) maps).failures⟩).fs,
         (maps.foldl (execStep (some td)) ⟨fs, [], (planPass fs (some td) maps).failures⟩).successes,
         (maps.foldl (execStep (some td)) ⟨fs, [], (planPass fs (some td) maps).failures⟩).failures) := by
      simp only [batch_rename, bind, Except.bind, pure, Except.pure, h, hpe,
        Bool.true_eq_false, if_false]
    exact ⟨_, hrun⟩
  · intro fs maps td r hok m hm
    rcases td with _ | td
    · simp only [batch_rename, bind, Except.bind, pure, Except.pure] at hok
      cases hok
      exact exec_fold_covers none maps _ m hm
    · simp only [batch_rename, bind, Except.bind, pure, Except.pure] at hok
      split at hok
      · cases hok
      · split at hok
        · cases hok
        · cases hok
          exact exec_fold_covers (some td) maps _ m hm
  · exact ⟨_, rfl, rfl, rfl, rfl, rfl, rfl⟩
  · exact ⟨_, rfl⟩

/-- Witness for C4's quantified conjuncts at a concrete batch: the
no-target-directory run and the target-directory run both return `.ok`,
and the source of every mapping lands in the succeeded or failed list. -/
theorem C4_partial_failure_isolation_witness :
    (∃ r, batch_rename fsBatch batchMaps none = .ok r) ∧
    (∃ r, batch_rename fsBatch batchMaps (some ["d"]) = .ok r) ∧
    (∀ r, batch_rename fsBatch batchMaps none = .ok r →
      ["d", "b"] ∈ r.2.1.map Prod.fst ∨ ["d", "b"] ∈ r.2.2.map Prod.fst) := by
  refine ⟨C4_partial_failure_isolation.1 fsBatch batchMaps,
    C4_partial_failure_isolation.2.1 fsBatch batchMaps ["d"] (by decide),
    fun r hok => C4_partial_failure_isolation.2.2.1 fsBatch batchMaps none r hok
      (["d", "b"], "bb") (by decide)⟩

/-- The mappings a batch's planning pass lets through to execution: those
whose source is absent from the planning failure list (the execution
pass's own skip criterion). -/
def acceptedMappings (fs : FS) (target_dir : Option FPath)
    (file_mappings : List (FPath × String)) : List (FPath × String) :=
  file_mappings.filter
    (fun mp => !((planPass fs target_dir file_mappings).failures.any (fun f => f.1 == mp.1)))

lemma planStep_target_mono (fs : FS) (td : Option FPath) (s : PlanState)
    (m : FPath × String) (q : FPath) (hq : q ∈ s.target_files) :
    q ∈ (planStep fs td s m).target_files := by
  unfold planStep
  split
  · exact hq
  · split
    · exact hq
    · exact List.mem_append_left _ hq

lemma planFold_target_mono (fs : FS) (td : Option FPath) (l : List (FPath × String)) :
    ∀ (s : PlanState) (q : FPath), q ∈ s.target_files →
      q ∈ ((l.foldl (planStep fs td) s).target_files) := by
  induction l with
  | nil => intro s q hq; exact hq
  | cons a rest ih =>
    intro s q hq
    exact ih _ q (planStep_target_mono fs td s a q hq)

lemma planStep_failures_mono (fs : FS) (td : Option FPath) (s : PlanState)
    (m : FPath × String) (f : FPath × String) (hf : f ∈ s.failures) :
    f ∈ (planStep fs td s m).failures := by
  unfold planStep
  split
  · exact List.mem_append_left _ hf
  · split
    · exact List.mem_append_left _ hf
    · exact hf

lemma planFold_failures_mono (fs : FS) (td : Option FPath) (l : List (FPath × String)) :
    ∀ (s : PlanState) (f : FPath × String), f ∈ s.failures →
      f ∈ ((l.foldl (planStep fs td) s).failures) := by
  induction l with
  | nil => intro s f hf; exact hf
  | cons a rest ih =>
    intro s f hf
    exact ih _ f (planStep_failures_mono fs td s a f hf)

lemma planFold_failures_sources_sublist (fs : FS) (td : Option FPath) :
    ∀ (l : List (FPath × String)) (s : PlanState),
      (((l.foldl (planStep fs td) s).failures).map Prod.fst).Sublist
        ((s.failures.map Prod.fst) ++ l.map Prod.fst) := by
  intro l
  induction l with
  | nil => intro s; simp
  | cons a rest ih =>
    intro s
    have hmid : ∀ msg, ((s.failures ++ [(a.1, msg)]).map Prod.fst) ++ rest.map Prod.fst =
        s.failures.map Prod.fst ++ (a :: rest).map Prod.fst := by
      intro msg
      simp
    simp only [List.foldl_cons]
    unfold planStep
    split
    · exact (hmid dupMsg) ▸ ih { s with failures := s.failures ++ [(a.1, dupMsg)] }
    · split
      · exact (hmid existsMsg) ▸ ih { s with failures := s.failures ++ [(a.1, existsMsg)] }
      · refine (ih _).trans ?_
        simp only [List.map_cons]
        exact (List.sublist_cons_self a.1 (rest.map Prod.fst)).append_left _

/-- C5: in the planning pass, a mapping whose resolved destination was
already claimed by an earlier accepted mapping of the same batch is
rejected with the duplicate-target reason while the earlier one is
accepted (adds no failure entry); a mapping whose destination exists on
the filesystem and is not its own source path is rejected with the
target-exists reason; rejected sources and the accepted subset both
preserve input order, and no accepted mapping's source occurs among the
rejections. -/
theorem C5_planning_rejections (fs : FS) (td : Option FPath) :
    (∀ (l1 : List (FPath × String)) (m : FPath × String) (l2 : List (FPath × String))
        (m' : FPath × String) (l3 : List (FPath × String)),
      destOf td m ∉ (planPass fs td l1).target_files →
      ¬(fs.pathExists (destOf td m) = true ∧ m.1 ≠ destOf td m) →
      destOf td m' = destOf td m →
      (planPass fs td (l1 ++ [m])).failures = (planPass fs td l1).failures ∧
      (m'.1, dupMsg) ∈ (planPass fs td (l1 ++ m :: l2 ++ m' :: l3)).failures) ∧
    (∀ (l1 : List (FPath × String)) (m' : FPath × String) (l3 : List (FPath × String)),
      destOf td m' ∉ (planPass fs td l1).target_files →
      fs.pathExists (destOf td m') = true → m'.1 ≠ destOf td m' →
      (m'.1, existsMsg) ∈ (planPass fs td (l1 ++ m' :: l3)).failures) ∧
    (∀ maps : List (FPath × String),
      (((planPass fs td maps).failures.map Prod.fst).Sublist (maps.map Prod.fst)) ∧
      ((acceptedMappings fs td maps).Sublist maps) ∧
      ∀ mp ∈ acceptedMappings fs td maps,
        mp.1 ∉ (planPass fs td maps).failures.map Prod.fst) := by
  refine ⟨?_, ?_, ?_⟩
  · intro l1 m l2 m' l3 h1 h2 hdd
    have hstep : planStep fs td (planPass fs td l1) m =
        { planPass fs td l1 with
          target_files := (planPass fs td l1).target_files ++ [destOf td m] } := by
      unfold planStep
      rw [if_neg h1, if_neg h2]
    constructor
    · have hrw : planPass fs td (l1 ++ [m]) = planStep fs td (planPass fs td l1) m := by
        simp [planPass, List.foldl_append]
      rw [hrw, hstep]
    · have hplan2 : planPass fs td (l1 ++ m :: l2) =
          l2.foldl (planStep fs td) (planStep fs td (planPass fs td l1) m) := by
        simp [planPass, List.foldl_append]
      have hmem : destOf td m' ∈ (planPass fs td (l1 ++ m :: l2)).target_files := by
        rw [hplan2, hdd]
        apply planFold_target_mono
        rw [hstep]
        exact List.mem_append_right _ (by simp)
      have hstep' : planStep fs td (planPass fs td (l1 ++ m :: l2)) m' =
          { planPass fs td (l1 ++ m :: l2) with
            failures := (planPass fs td (l1 ++ m :: l2)).failures ++ [(m'.1, dupMsg)] } := by
        unfold planStep
        rw [if_pos hmem]
      have h3 : (m'.1, dupMsg) ∈
          (planStep fs td (planPass fs td (l1 ++ m :: l2)) m').failures := by
        rw [hstep']
        simp
      have h4 := planFold_failures_mono fs td l3 _ _ h3
      have h5 : planPass fs td ((l1 ++ m :: l2) ++ m' :: l3) =
          l3.foldl (planStep fs td) (planStep fs td (planPass fs td (l1 ++ m :: l2)) m') := by
        simp [planPass, List.foldl_append]
      rw [show l1 ++ m :: l2 ++ m' :: l3 = (l1 ++ m :: l2) ++ m' :: l3 by simp, h5]
      exact h4
  · intro l1 m' l3 h1 hex hne
    have hstep' : planStep fs td (planPass fs td l1) m' =
        { planPass fs td l1 with
          failures := (planPass fs td l1).failures ++ [(m'.1, existsMsg)] } := by
      unfold planStep
      rw [if_neg h1, if_pos ⟨hex, hne⟩]
    have h3 : (m'.1, existsMsg) ∈ (planStep fs td (planPass fs td l1) m').failures := by
      rw [hstep']
      simp
    have h4 := planFold_failures_mono fs td l3 _ _ h3
    have h5 : planPass fs td (l1 ++ m' :: l3) =
        l3.foldl (planStep fs td) (planStep fs td (planPass fs td l1) m') := by
      simp [planPass, List.foldl_append]
    rw [h5]
    exact h4
  · intro maps
    refine ⟨?_, List.filter_sublist _, ?_⟩
    · simpa [planPass] using
        planFold_failures_sources_sublist fs td maps ⟨[], []⟩
    · intro mp hmp hin
      rw [acceptedMappings, List.mem_filter] at hmp
      have hany := hmp.2
      rcases List.mem_map.mp hin with ⟨f, hfmem, hfst⟩
      have : (planPass fs td maps).failures.any (fun f => f.1 == mp.1) = true :=
        List.any_eq_true.mpr ⟨f, hfmem, by simp [hfst]⟩
      simp [this] at hany

/-- Witness for C5 at a concrete batch: two mappings both resolving to
`/d/x.txt` — the second is rejected with the duplicate-target reason and
the first is accepted; a mapping onto the pre-existing `/d/bb` is
rejected with the target-exists reason. -/
theorem C5_planning_rejections_witness :
    ((planPass fsBatch none [(["d", "a"], "x.txt")]).failures =
      (planPass fsBatch none []).failures ∧
      ((["d", "c"], dupMsg) ∈
        (planPass fsBatch none
          [(["d", "a"], "x.txt"), (["d", "c"], "x.txt")]).failures)) ∧
    ((["d", "c"], existsMsg) ∈
      (planPass fsBatch none [(["d", "a"], "aa"), (["d", "c"], "bb")]).failures) := by
  constructor
  · have h := (C5_planning_rejections fsBatch none).1 [] (["d", "a"], "x.txt") []
      (["d", "c"], "x.txt") [] (by decide) (by decide) (by decide)
    simpa using h
  · have h := (C5_planning_rejections fsBatch none).2.1 [(["d", "a"], "aa")]
      (["d", "c"], "bb") [] (by decide) (by decide) (by decide)
    simpa using h

lemma execStep_skip (td : Option FPath) (s : ExecState) (m : FPath × String)
    (h : (s.failures.any (fun f => f.1 == m.1)) = true) : execStep td s m = s := by
  unfold execStep
  rw [if_pos h]

lemma execStep_ok_true (td : Option FPath) (s : ExecState) (m : FPath × String)
    (fs' : FS) (hskip : (s.failures.any (fun f => f.1 == m.1)) = false)
    (heq : rename_file s.fs m.1 m.2 td = .ok (fs', true)) :
    execStep td s m =
      { s with fs := fs', successes := s.successes ++ [(m.1, destOf td m)] } := by
  unfold execStep
  rw [if_neg (by simp [hskip]), heq]
  rfl

lemma execStep_error (td : Option FPath) (s : ExecState) (m : FPath × String)
    (e : RenameError) (hskip : (s.failures.any (fun f => f.1 == m.1)) = false)
    (heq : rename_file s.fs m.1 m.2 td = .error e) :
    execStep td s m = { s with failures := s.failures ++ [(m.1, e.message)] } := by
  unfold execStep
  rw [if_neg (by simp [hskip]), heq]

lemma exec_fold_source_blocked (td : Option FPath) (src : FPath) :
    ∀ (maps : List (FPath × String)) (s : ExecState), src ∈ s.failures.map Prod.fst →
      ((maps.foldl (execStep td) s).successes.filter (fun pr => pr.1 == src) =
        s.successes.filter (fun pr => pr.1 == src)) ∧
      ((maps.foldl (execStep td) s).failures.filter (fun pr => pr.1 == src) =
        s.failures.filter (fun pr => pr.1 == src)) := by
  intro maps
  induction maps with
  | nil => intro s _; exact ⟨rfl, rfl⟩
  | cons a rest ih =>
    intro s hsrc
    simp only [List.foldl_cons]
    by_cases hskip : (s.failures.any (fun f => f.1 == a.1)) = true
    · rw [execStep_skip td s a hskip]
      exact ih s hsrc
    · have hskipf : (s.failures.any (fun f => f.1 == a.1)) = false := by
        simp only [Bool.not_eq_true] at hskip
        exact hskip
      have hne : ¬ a.1 = src := by
        intro he
        apply hskip
        rcases List.mem_map.mp hsrc with ⟨f, hf, hfst⟩
        exact List.any_eq_true.mpr ⟨f, hf, by simp [hfst, he]⟩
      have hnb : (a.1 == src) = false := by simpa using hne
      cases hre : rename_file s.fs a.1 a.2 td with
      | ok p =>
        obtain ⟨fs', succ⟩ := p
        have hb := rename_file_snd_true s.fs a.1 a.2 td (fs', succ) hre
        simp only at hb
        subst hb
        rw [execStep_ok_true td s a fs' hskipf hre]
        have h1 := ih { s with fs := fs', successes := s.successes ++ [(a.1, destOf td a)] }
          (by simpa using hsrc)
        refine ⟨?_, h1.2⟩
        rw [h1.1]
        simp [List.filter_append, hnb]
      | error e =>
        rw [execStep_error td s a e hskipf hre]
        have h1 := ih { s with failures := s.failures ++ [(a.1, e.message)] }
          (by simp [hsrc])
        refine ⟨h1.1, ?_⟩
        rw [h1.2]
        simp [List.filter_append, hnb]

/-- C10: the execution pass skips a mapping exactly when its source is
already in the failure list (a skipped mapping adds nothing, a
non-skipped one adds exactly one succeeded or failed entry); hence when a
source occurs among the planning rejections, no mapping with that source
is ever executed: the succeeded list has no entry for it and its failed
entries are exactly the planning ones. -/
theorem C10_planning_failure_blocks_same_source (fs : FS) (td : Option FPath)
    (maps : List (FPath × String)) (src : FPath)
    (r : FS × List (FPath × FPath) × List (FPath × String)) :
    (∀ (s : ExecState) (m : FPath × String),
      (s.failures.any (fun f => f.1 == m.1)) = true → execStep td s m = s) ∧
    (∀ (s : ExecState) (m : FPath × String),
      (s.failures.any (fun f => f.1 == m.1)) = false →
      (execStep td s m).successes.length + (execStep td s m).failures.length =
        s.successes.length + s.failures.length + 1) ∧
    (src ∈ (planPass fs td maps).failures.map Prod.fst →
      batch_rename fs maps td = .ok r →
      r.2.1.filter (fun pr => pr.1 == src) = [] ∧
      r.2.2.filter (fun pr => pr.1 == src) =
        (planPass fs td maps).failures.filter (fun pr => pr.1 == src)) := by
  refine ⟨execStep_skip td, ?_, ?_⟩
  · intro s m hno
    cases hre : rename_file s.fs m.1 m.2 td with
    | ok p =>
      obtain ⟨fs', succ⟩ := p
      have hb := rename_file_snd_true s.fs m.1 m.2 td (fs', succ) hre
      simp only at hb
      subst hb
      rw [execStep_ok_true td s m fs' hno hre]
      simp only [List.length_append, List.length_singleton]
      omega
    | error e =>
      rw [execStep_error td s m e hno hre]
      simp only [List.length_append, List.length_singleton]
      omega
  · intro hsrc hok
    have hblocked := exec_fold_source_blocked td src maps
      ⟨fs, [], (planPass fs td maps).failures⟩ hsrc
    rcases td with _ | td'
    · simp only [batch_rename, bind, Except.bind, pure, Except.pure] at hok
      cases hok
      exact ⟨by simpa using hblocked.1, by simpa using hblocked.2⟩
    · simp only [batch_rename, bind, Except.bind, pure, Except.pure] at hok
      split at hok
      · cases hok
      · split at hok
        · cases hok
        · cases hok
          exact ⟨by simpa using hblocked.1, by simpa using hblocked.2⟩

/-- Witness for C10 at a concrete batch: two mappings share the source
`/d/a`; the second is rejected during planning (duplicate target), so the
first — although accepted by planning — is never executed: the succeeded
list has no entry for that source and the failed list holds exactly the
planning rejection. -/
theorem C10_planning_failure_blocks_same_source_witness :
    ∀ r, batch_rename fsBatch [(["d", "a"], "aa"), (["d", "a"], "aa")] none = .ok r →
      r.2.1.filter (fun pr => pr.1 == ["d", "a"]) = [] ∧
      r.2.2.filter (fun pr => pr.1 == ["d", "a"]) =
        (planPass fsBatch none [(["d", "a"], "aa"), (["d", "a"], "aa")]).failures.filter
          (fun pr => pr.1 == ["d", "a"]) := by
  intro r hok
  exact (C10_planning_failure_blocks_same_source fsBatch none
    [(["d", "a"], "aa"), (["d", "a"], "aa")] ["d", "a"] r).2.2 (by decide) hok

/-- One history entry: the `operation_info` dict built by
`UndoManager.record_operation` (src/undo_manager.py, lines 36-42).  The
id models the f-string `"{time.time():.6f}_{current_operation_id}"` as
the pair (time, counter); `timestamp` models `time.time()`. -/
structure OperationInfo where
  opId : Nat × Nat
  timestamp : Nat
  operations : List (FPath × FPath)
  description : String
deriving DecidableEq

/-- Bounded append of `collections.deque(maxlen = maxHistory)`: pushing
onto the right end evicts from the left end when the deque is full (list
front = oldest entry, list back = top of the stack). -/
def pushBounded (maxHistory : Nat) (stack : List OperationInfo)
    (op : OperationInfo) : List OperationInfo :=
  if maxHistory < (stack ++ [op]).length then
    (stack ++ [op]).drop ((stack ++ [op]).length - maxHistory)
  else stack ++ [op]

/-- The `UndoManager` state (src/undo_manager.py): the two bounded
stacks and the monotonic operation-id counter. -/
structure UndoManager where
  max_history : Nat
  undo_stack : List OperationInfo
  redo_stack : List OperationInfo
  current_operation_id : Nat
deriving DecidableEq

/-- Models `UndoManager.__init__` (default capacity 50). -/
def UndoManager.init (maxHistory : Nat := 50) : UndoManager :=
  { max_history := maxHistory, undo_stack := [], redo_stack := [],
    current_operation_id := 0 }

/-- Shallow embedding of `UndoManager.record_operation` (lines 23-48):
no-op on an empty operation list, otherwise synthesize an id, push the
new entry onto the undo stack (bounded) and clear the redo stack.
`now` stands for the `time.time()` calls. -/
def UndoManager.record_operation (m : UndoManager) (now : Nat)
    (rename_operations : List (FPath × FPath)) : UndoManager :=
  if rename_operations = [] then m
  else
    { m with
      current_operation_id := m.current_operation_id + 1,
      undo_stack := pushBounded m.max_history m.undo_stack
        { opId := (now, m.current_operation_id),
          timestamp := now,
          operations := rename_operations,
          description := "批量重命名 " ++ toString rename_operations.length ++ " 个文件" },
      redo_stack := [] }

/-- Models `UndoManager.can_undo`. -/
def UndoManager.can_undo (m : UndoManager) : Bool := decide (0 < m.undo_stack.length)

/-- Models `UndoManager.can_redo`. -/
def UndoManager.can_redo (m : UndoManager) : Bool := decide (0 < m.redo_stack.length)

/-- Models the `os.makedirs` calls of undo/redo: registers the directory
together with all its ancestors. -/
def FS.makedirs (fs : FS) (d : FPath) : FS :=
  { fs with dirs := (List.range d.length).map (fun i => d.take (i + 1)) ++ fs.dirs }

/-- The per-pair loop of `undo` (lines 80-89): for each recorded
`(old, new)` pair ensure `dirname(new)` exists (creating it when
missing) and emit the swapped pair `(new, old)`. -/
def undoLoop : FS → List (FPath × FPath) → FS × List (FPath × FPath)
  | fs, [] => (fs, [])
  | fs, pr :: rest =>
    let fs1 := if dirnameP pr.2 ≠ [] ∧ fs.pathExists (dirnameP pr.2) = false
      then fs.makedirs (dirnameP pr.2) else fs
    ((undoLoop fs1 rest).1, (pr.2, pr.1) :: (undoLoop fs1 rest).2)

/-- The per-pair loop of `redo` (lines 109-116): ensure `dirname(new)`
exists and emit the original forward pair `(old, new)`. -/
def redoLoop : FS → List (FPath × FPath) → FS × List (FPath × FPath)
  | fs, [] => (fs, [])
  | fs, pr :: rest =>
    let fs1 := if dirnameP pr.2 ≠ [] ∧ fs.pathExists (dirnameP pr.2) = false
      then fs.makedirs (dirnameP pr.2) else fs
    ((redoLoop fs1 rest).1, (pr.1, pr.2) :: (redoLoop fs1 rest).2)

/-- Shallow embedding of `UndoManager.undo` (lines 66-94): empty stack
returns the empty list, otherwise pop the top undo entry, build the
swapped operation list (creating missing parent directories), push the
entry onto the redo stack and return the inverse list. -/
def UndoManager.undo (m : UndoManager) (fs : FS) :
    UndoManager × FS × List (FPath × FPath) :=
  match m.undo_stack.getLast? with
  | none => (m, fs, [])
  | some op =>
    ({ m with undo_stack := m.undo_stack.dropLast,
              redo_stack := pushBounded m.max_history m.redo_stack op },
     (undoLoop fs op.operations).1, (undoLoop fs op.operations).2)

/-- Shallow embedding of `UndoManager.redo` (lines 96-121): symmetric to
`undo`, regenerating the forward list. -/
def UndoManager.redo (m : UndoManager) (fs : FS) :
    UndoManager × FS × List (FPath × FPath) :=
  match m.redo_stack.getLast? with
  | none => (m, fs, [])
  | some op =>
    ({ m with redo_stack := m.redo_stack.dropLast,
              undo_stack := pushBounded m.max_history m.undo_stack op },
     (redoLoop fs op.operations).1, (redoLoop fs op.operations).2)

/-- Models `UndoManager.clear_history`. -/
def UndoManager.clear_history (m : UndoManager) : UndoManager :=
  { m with undo_stack := [], redo_stack := [], current_operation_id := 0 }

lemma undoLoop_snd (l : List (FPath × FPath)) :
    ∀ fs, (undoLoop fs l).2 = l.map (fun pr => (pr.2, pr.1)) := by
  induction l with
  | nil => intro fs; rfl
  | cons pr rest ih => intro fs; simp [undoLoop, ih]

lemma redoLoop_snd (l : List (FPath × FPath)) :
    ∀ fs, (redoLoop fs l).2 = l := by
  induction l with
  | nil => intro fs; rfl
  | cons pr rest ih => intro fs; simp [redoLoop, ih]

lemma pushBounded_of_lt (maxHistory : Nat) (s : List OperationInfo)
    (op : OperationInfo) (h : s.length < maxHistory) :
    pushBounded maxHistory s op = s ++ [op] := by
  unfold pushBounded
  rw [if_neg]
  simp
  omega

lemma pushBounded_getLast (maxHistory : Nat) (s : List OperationInfo)
    (op : OperationInfo) (h : 0 < maxHistory) :
    (pushBounded maxHistory s op).getLast? = some op := by
  unfold pushBounded
  split
  · rename_i hlen
    have hk : (s ++ [op]).length - maxHistory ≤ s.length := by
      simp
      omega
    rw [List.drop_append_eq_append_drop]
    have h0 : (s ++ [op]).length - maxHistory - s.length = 0 := by
      simp
      omega
    rw [h0]
    simp [List.getLast?_concat]
  · exact List.getLast?_concat _

/-- C2: recording a non-empty batch, undoing, then redoing returns first
the recorded pairs with each `(old, new)` swapped to `(new, old)` in the
same order, and then the forward list identical to the original batch. -/
theorem C2_record_undo_redo_roundtrip (m : UndoManager) (fs : FS) (now : Nat)
    (pairs : List (FPath × FPath)) (hne : pairs ≠ []) (hcap : 0 < m.max_history) :
    ((m.record_operation now pairs).undo fs).2.2 =
      pairs.map (fun pr => (pr.2, pr.1)) ∧
    ((((m.record_operation now pairs).undo fs).1).redo
        (((m.record_operation now pairs).undo fs).2.1)).2.2 = pairs := by
  set op : OperationInfo :=
    { opId := (now, m.current_operation_id), timestamp := now, operations := pairs,
      description := "批量重命名 " ++ toString pairs.length ++ " 个文件" } with hopdef
  have hrec : m.record_operation now pairs =
      { m with
        current_operation_id := m.current_operation_id + 1,
        undo_stack := pushBounded m.max_history m.undo_stack op,
        redo_stack := [] } := by
    unfold UndoManager.record_operation
    rw [if_neg hne]
  have hlast : (m.record_operation now pairs).undo_stack.getLast? = some op := by
    rw [hrec]
    exact pushBounded_getLast _ _ _ hcap
  have hundo : (m.record_operation now pairs).undo fs =
      ({ m.record_operation now pairs with
          undo_stack := (m.record_operation now pairs).undo_stack.dropLast,
          redo_stack :=
            pushBounded (m.record_operation now pairs).max_history
              (m.record_operation now pairs).redo_stack op },
        (undoLoop fs op.operations).1, (undoLoop fs op.operations).2) := by
    unfold UndoManager.undo
    rw [hlast]
  constructor
  · rw [hundo]
    exact undoLoop_snd pairs fs
  · have hm2redo : ((m.record_operation now pairs).undo fs).1.redo_stack =
        pushBounded m.max_history [] op := by
      rw [hundo, hrec]
    have hlast2 : ((m.record_operation now pairs).undo fs).1.redo_stack.getLast? =
        some op := by
      rw [hm2redo]
      exact pushBounded_getLast _ _ _ hcap
    unfold UndoManager.redo
    rw [hlast2]
    exact redoLoop_snd pairs _

/-- Witness for C2 at a fresh manager and a one-pair batch. -/
theorem C2_record_undo_redo_roundtrip_witness :
    ((UndoManager.init.record_operation 0 [(["a", "x"], ["a", "y"])]).undo
        fsNoFiles).2.2 = [(["a", "y"], ["a", "x"])] ∧
    (((UndoManager.init.record_operation 0 [(["a", "x"], ["a", "y"])]).undo
        fsNoFiles).1.redo
      (((UndoManager.init.record_operation 0 [(["a", "x"], ["a", "y"])]).undo
        fsNoFiles).2.1)).2.2 = [(["a", "x"], ["a", "y"])] := by
  have h := C2_record_undo_redo_roundtrip UndoManager.init fsNoFiles 0
    [(["a", "x"], ["a", "y"])] (by decide) (by decide)
  exact ⟨h.1, h.2⟩

/-- C3: recording a non-empty batch clears the redo stack (a stale redo
then returns the empty list), recording an empty batch changes nothing,
and undo/redo never clear a stack: each pops exactly the top entry of
one stack and pushes that entry onto the other (when the receiving
stack is below capacity, its length grows by exactly one). -/
theorem C3_stack_discipline (m : UndoManager) (fs : FS) (now : Nat)
    (ops : List (FPath × FPath)) :
    (ops ≠ [] → (m.record_operation now ops).redo_stack = [] ∧
      ((m.record_operation now ops).redo fs).2.2 = []) ∧
    (m.record_operation now [] = m) ∧
    (m.undo_stack ≠ [] → 0 < m.max_history →
      ((m.undo fs).1.undo_stack = m.undo_stack.dropLast ∧
       (m.undo fs).1.redo_stack.getLast? = m.undo_stack.getLast? ∧
       (m.undo fs).1.redo_stack ≠ [] ∧
       (m.redo_stack.length < m.max_history →
         (m.undo fs).1.redo_stack = m.redo_stack ++ m.undo_stack.getLast?.toList ∧
         (m.undo fs).1.redo_stack.length = m.redo_stack.length + 1 ∧
         (m.undo fs).1.undo_stack.length = m.undo_stack.length - 1))) ∧
    (m.redo_stack ≠ [] → 0 < m.max_history →
      ((m.redo fs).1.redo_stack = m.redo_stack.dropLast ∧
       (m.redo fs).1.undo_stack.getLast? = m.redo_stack.getLast? ∧
       (m.redo fs).1.undo_stack ≠ [] ∧
       (m.undo_stack.length < m.max_history →
         (m.redo fs).1.undo_stack = m.undo_stack ++ m.redo_stack.getLast?.toList ∧
         (m.redo fs).1.undo_stack.length = m.undo_stack.length + 1 ∧
         (m.redo fs).1.redo_stack.length = m.redo_stack.length - 1))) := by
  refine ⟨?_, ?_, ?_, ?_⟩
  · intro h
    have h1 : (m.record_operation now ops).redo_stack = [] := by
      unfold UndoManager.record_operation
      rw [if_neg h]
    refine ⟨h1, ?_⟩
    unfold UndoManager.redo
    rw [h1]
    rfl
  · simp [UndoManager.record_operation]
  · intro hu hcap
    have hsome : m.undo_stack.getLast?.isSome := List.getLast?_isSome.mpr hu
    obtain ⟨op, hop⟩ := Option.isSome_iff_exists.mp hsome
    have hundo_eq : m.undo fs =
        ({ m with
            undo_stack := m.undo_stack.dropLast,
            redo_stack := pushBounded m.max_history m.redo_stack op },
          (undoLoop fs op.operations).1, (undoLoop fs op.operations).2) := by
      unfold UndoManager.undo
      rw [hop]
    refine ⟨by rw [hundo_eq], ?_, ?_, ?_⟩
    · rw [hundo_eq, hop]
      exact pushBounded_getLast _ _ _ hcap
    · rw [hundo_eq]
      intro hnil
      have hg := pushBounded_getLast m.max_history m.redo_stack op hcap
      simp only at hnil
      rw [hnil] at hg
      simp at hg
    · intro hlt
      have hpb := pushBounded_of_lt m.max_history m.redo_stack op hlt
      refine ⟨?_, ?_, ?_⟩
      · rw [hundo_eq]
        simp only
        rw [hpb, hop]
        rfl
      · rw [hundo_eq]
        simp only
        rw [hpb]
        simp
      · rw [hundo_eq]
        simp
  · intro hr hcap
    have hsome : m.redo_stack.getLast?.isSome := List.getLast?_isSome.mpr hr
    obtain ⟨op, hop⟩ := Option.isSome_iff_exists.mp hsome
    have hredo_eq : m.redo fs =
        ({ m with
            redo_stack := m.redo_stack.dropLast,
            undo_stack := pushBounded m.max_history m.undo_stack op },
          (redoLoop fs op.operations).1, (redoLoop fs op.operations).2) := by
      unfold UndoManager.redo
      rw [hop]
    refine ⟨by rw [hredo_eq], ?_, ?_, ?_⟩
    · rw [hredo_eq, hop]
      exact pushBounded_getLast _ _ _ hcap
    · rw [hredo_eq]
      intro hnil
      have hg := pushBounded_getLast m.max_history m.undo_stack op hcap
      simp only at hnil
      rw [hnil] at hg
      simp at hg
    · intro hlt
      have hpb := pushBounded_of_lt m.max_history m.undo_stack op hlt
      refine ⟨?_, ?_, ?_⟩
      · rw [hredo_eq]
        simp only
        rw [hpb, hop]
        rfl
      · rw [hredo_eq]
        simp only
        rw [hpb]
        simp
      · rw [hredo_eq]
        simp

/-- A sample recorded operation for exercising the history stacks. -/
def opSample : OperationInfo :=
  { opId := (0, 0), timestamp := 0, operations := [(["a", "x"], ["b", "y"])],
    description := "批量重命名 1 个文件" }

/-- A second sample recorded operation. -/
def opSample2 : OperationInfo :=
  { opId := (1, 1), timestamp := 1, operations := [(["a", "u"], ["a", "v"])],
    description := "批量重命名 1 个文件" }

/-- A manager whose undo and redo stacks each hold one entry. -/
def mSample : UndoManager :=
  { max_history := 50, undo_stack := [opSample], redo_stack := [opSample2],
    current_operation_id := 2 }

/-- Witness for C3 at a concrete manager with both stacks non-empty. -/
theorem C3_stack_discipline_witness :
    ((mSample.record_operation 2 [(["a", "x"], ["a", "y"])]).redo_stack = [] ∧
      ((mSample.record_operation 2 [(["a", "x"], ["a", "y"])]).redo fsNoFiles).2.2 = []) ∧
    (mSample.record_operation 2 [] = mSample) ∧
    ((mSample.undo fsNoFiles).1.undo_stack = mSample.undo_stack.dropLast ∧
      (mSample.undo fsNoFiles).1.redo_stack.length = mSample.redo_stack.length + 1) ∧
    ((mSample.redo fsNoFiles).1.redo_stack = mSample.redo_stack.dropLast ∧
      (mSample.redo fsNoFiles).1.undo_stack.length = mSample.undo_stack.length + 1) := by
  have h := C3_stack_discipline mSample fsNoFiles 2 [(["a", "x"], ["a", "y"])]
  refine ⟨h.1 (by decide), h.2.1, ?_, ?_⟩
  · have h3 := h.2.2.1 (by decide) (by decide)
    exact ⟨h3.1, (h3.2.2.2 (by decide)).2.1⟩
  · have h4 := h.2.2.2 (by decide) (by decide)
    exact ⟨h4.1, (h4.2.2.2 (by decide)).2.1⟩

/-- Round a rational to an integer, ties to even — the integer-level
rounding step of IEEE-754 round-to-nearest-even. -/
def rndHalfEven (x : ℚ) : ℤ :=
  if x - Int.floor x < 1/2 then Int.floor x
  else if 1/2 < x - Int.floor x then Int.floor x + 1
  else if Int.floor x % 2 = 0 then Int.floor x else Int.floor x + 1

/-- The IEEE-754 binary64 double nearest a positive rational: scale into
the 53-bit significand range `[2^52, 2^53)` by the power of two found by
`Int.log`, round to the nearest integer (ties to even) and scale back.
The progress computation stays far inside the normal binary64 range, so
overflow, underflow and subnormals do not arise. -/
def roundDoublePos (q : ℚ) : ℚ :=
  ((rndHalfEven (q * (2 : ℚ) ^ (52 - Int.log 2 q)) : ℤ) : ℚ) *
    (2 : ℚ) ^ (Int.log 2 q - 52)

/-- The IEEE-754 binary64 double nearest a rational. -/
def roundDouble (q : ℚ) : ℚ :=
  if q < 0 then -roundDoublePos (-q) else roundDoublePos q

/-- Python `int()` applied to a float value: truncation toward zero. -/
def pyInt (q : ℚ) : ℤ := if q < 0 then Int.ceil q else Int.floor q

/-- Progress value emitted after item `i` (0-based) of a batch of
`total` items by `FileRenameThread.run` (src/ui.py, line 50):
`int((i + 1) / total * 100)` evaluated in IEEE-754 binary64 arithmetic —
the true division `(i + 1) / total` produces the correctly rounded
double of the exact quotient (both operands are exactly representable
integers), the product with the exactly representable `100` is
correctly rounded again, and `int()` truncates toward zero. -/
def progress_value (total i : Nat) : ℤ :=
  pyInt (roundDouble (roundDouble ((i + 1 : ℚ) / total) * 100))

/-- The sequence of progress values emitted during one run of the apply
worker over a batch of `total` items, one value per item. -/
def progressValues (total : Nat) : List ℤ :=
  (List.range total).map (fun i => progress_value total i)

lemma rndHalfEven_ge_floor (x : ℚ) : Int.floor x ≤ rndHalfEven x := by
  unfold rndHalfEven
  split_ifs <;> omega

lemma rndHalfEven_le_floor_add_one (x : ℚ) : rndHalfEven x ≤ Int.floor x + 1 := by
  unfold rndHalfEven
  split_ifs <;> omega

lemma rndHalfEven_mono {x y : ℚ} (h : x ≤ y) : rndHalfEven x ≤ rndHalfEven y := by
  have hf : Int.floor x ≤ Int.floor y := Int.floor_le_floor h
  rcases eq_or_lt_of_le hf with heq | hlt
  · unfold rndHalfEven
    rw [← heq]
    split_ifs <;> first | omega | (exfalso; linarith)
  · have h1 := rndHalfEven_le_floor_add_one x
    have h2 := rndHalfEven_ge_floor y
    omega

lemma zpow_two_pos (n : ℤ) : (0 : ℚ) < (2 : ℚ) ^ n := zpow_pos (by norm_num) n

/-- `Int.log 2` is pinned down by the bracketing `2^e ≤ q < 2^(e+1)`,
which lets concrete logarithms be certified by plain rational
arithmetic. -/
lemma int_log2_eq {q : ℚ} {e : ℤ} (hq : 0 < q)
    (hlo : (2 : ℚ) ^ e ≤ q) (hhi : q < (2 : ℚ) ^ (e + 1)) : Int.log 2 q = e := by
  have hub : ((2 : ℕ) : ℚ) ^ Int.log 2 q ≤ q :=
    Int.zpow_log_le_self (by norm_num) hq
  have hlb : q < ((2 : ℕ) : ℚ) ^ (Int.log 2 q + 1) :=
    Int.lt_zpow_succ_log_self (by norm_num) q
  push_cast at hub hlb
  by_contra hne
  rcases lt_or_gt_of_ne hne with hlt | hgt
  · have h1 : (2 : ℚ) ^ (Int.log 2 q + 1) ≤ (2 : ℚ) ^ e :=
      zpow_le_zpow_right₀ (by norm_num) (by omega)
    linarith
  · have h1 : (2 : ℚ) ^ (e + 1) ≤ (2 : ℚ) ^ (Int.log 2 q) :=
      zpow_le_zpow_right₀ (by norm_num) (by omega)
    linarith

/-- Evaluates `roundDouble` at a concrete positive rational, given the
exponent bracket, the scaled significand argument `x`, its floor `f`,
the rounded significand `m`, and the resulting value `r`; every
hypothesis is plain rational arithmetic. -/
lemma roundDouble_eval (q x r : ℚ) (e f m : ℤ)
    (hq : 0 < q)
    (hlo : (2 : ℚ) ^ e ≤ q) (hhi : q < (2 : ℚ) ^ (e + 1))
    (hx : q * (2 : ℚ) ^ (52 - e) = x)
    (hf : (f : ℚ) ≤ x) (hf2 : x < f + 1)
    (hm : (x - f < 1/2 ∧ m = f) ∨ (1/2 < x - f ∧ m = f + 1))
    (hr : (m : ℚ) * (2 : ℚ) ^ (e - 52) = r) :
    roundDouble q = r := by
  have hlog : Int.log 2 q = e := int_log2_eq hq hlo hhi
  have hfl : Int.floor x = f := Int.floor_eq_iff.mpr ⟨hf, hf2⟩
  have hrhe : rndHalfEven x = m := by
    unfold rndHalfEven
    rw [hfl]
    rcases hm with ⟨hltc, rfl⟩ | ⟨hgtc, rfl⟩
    · rw [if_pos hltc]
    · rw [if_neg (by linarith), if_pos hgtc]
  unfold roundDouble
  rw [if_neg (not_lt.mpr hq.le)]
  unfold roundDoublePos
  rw [hlog, hx, hrhe, hr]

lemma roundDoublePos_nonneg {q : ℚ} (hq : 0 ≤ q) : 0 ≤ roundDoublePos q := by
  unfold roundDoublePos
  apply mul_nonneg
  · have h1 : (0 : ℤ) ≤ Int.floor (q * (2 : ℚ) ^ (52 - Int.log 2 q)) :=
      Int.floor_nonneg.mpr (mul_nonneg hq (zpow_two_pos _).le)
    exact_mod_cast le_trans h1 (rndHalfEven_ge_floor _)
  · exact (zpow_two_pos _).le

lemma roundDouble_nonneg {q : ℚ} (hq : 0 ≤ q) : 0 ≤ roundDouble q := by
  unfold roundDouble
  rw [if_neg (not_lt.mpr hq)]
  exact roundDoublePos_nonneg hq

lemma roundDoublePos_le (q : ℚ) :
    roundDoublePos q ≤ (2 : ℚ) ^ (Int.log 2 q + 1) := by
  have hpow : ((2 ^ 53 : ℤ) : ℚ) = (2 : ℚ) ^ (53 : ℤ) := by norm_num
  have hxlt : q < (2 : ℚ) ^ (Int.log 2 q + 1) := by
    exact_mod_cast Int.lt_zpow_succ_log_self (by norm_num : 1 < 2) q
  have harg : q * (2 : ℚ) ^ (52 - Int.log 2 q) <
      (2 : ℚ) ^ (Int.log 2 q + 1) * (2 : ℚ) ^ (52 - Int.log 2 q) :=
    mul_lt_mul_of_pos_right hxlt (zpow_two_pos _)
  have hcollapse : (2 : ℚ) ^ (Int.log 2 q + 1) * (2 : ℚ) ^ (52 - Int.log 2 q) =
      (2 : ℚ) ^ (53 : ℤ) := by
    rw [← zpow_add₀ (two_ne_zero : (2 : ℚ) ≠ 0)]
    congr 1
    ring
  have hfl : Int.floor (q * (2 : ℚ) ^ (52 - Int.log 2 q)) < 2 ^ 53 := by
    rw [Int.floor_lt, hpow, ← hcollapse]
    exact harg
  have hrhe : rndHalfEven (q * (2 : ℚ) ^ (52 - Int.log 2 q)) ≤ 2 ^ 53 := by
    have h1 := rndHalfEven_le_floor_add_one (q * (2 : ℚ) ^ (52 - Int.log 2 q))
    omega
  unfold roundDoublePos
  calc ((rndHalfEven (q * (2 : ℚ) ^ (52 - Int.log 2 q)) : ℤ) : ℚ) *
      (2 : ℚ) ^ (Int.log 2 q - 52)
      ≤ ((2 ^ 53 : ℤ) : ℚ) * (2 : ℚ) ^ (Int.log 2 q - 52) :=
        mul_le_mul_of_nonneg_right (by exact_mod_cast hrhe) (zpow_two_pos _).le
    _ = (2 : ℚ) ^ (Int.log 2 q + 1) := by
        rw [hpow, ← zpow_add₀ (two_ne_zero : (2 : ℚ) ≠ 0)]
        congr 1
        ring

lemma le_roundDoublePos {q : ℚ} (hq : 0 < q) :
    (2 : ℚ) ^ (Int.log 2 q) ≤ roundDoublePos q := by
  have hpow : ((2 ^ 52 : ℤ) : ℚ) = (2 : ℚ) ^ (52 : ℤ) := by norm_num
  have hxge : (2 : ℚ) ^ (Int.log 2 q) ≤ q := by
    exact_mod_cast Int.zpow_log_le_self (by norm_num : 1 < 2) hq
  have harg : (2 : ℚ) ^ (Int.log 2 q) * (2 : ℚ) ^ (52 - Int.log 2 q) ≤
      q * (2 : ℚ) ^ (52 - Int.log 2 q) :=
    mul_le_mul_of_nonneg_right hxge (zpow_two_pos _).le
  have hcollapse : (2 : ℚ) ^ (Int.log 2 q) * (2 : ℚ) ^ (52 - Int.log 2 q) =
      (2 : ℚ) ^ (52 : ℤ) := by
    rw [← zpow_add₀ (two_ne_zero : (2 : ℚ) ≠ 0)]
    congr 1
    ring
  have hfl : (2 ^ 52 : ℤ) ≤ Int.floor (q * (2 : ℚ) ^ (52 - Int.log 2 q)) := by
    rw [Int.le_floor, hpow, ← hcollapse]
    exact harg
  have hrhe : (2 ^ 52 : ℤ) ≤ rndHalfEven (q * (2 : ℚ) ^ (52 - Int.log 2 q)) := by
    have h1 := rndHalfEven_ge_floor (q * (2 : ℚ) ^ (52 - Int.log 2 q))
    omega
  unfold roundDoublePos
  calc (2 : ℚ) ^ (Int.log 2 q)
      = ((2 ^ 52 : ℤ) : ℚ) * (2 : ℚ) ^ (Int.log 2 q - 52) := by
        rw [hpow, ← zpow_add₀ (two_ne_zero : (2 : ℚ) ≠ 0)]
        congr 1
        ring
    _ ≤ ((rndHalfEven (q * (2 : ℚ) ^ (52 - Int.log 2 q)) : ℤ) : ℚ) *
        (2 : ℚ) ^ (Int.log 2 q - 52) :=
        mul_le_mul_of_nonneg_right (by exact_mod_cast hrhe) (zpow_two_pos _).le

lemma roundDoublePos_mono {x y : ℚ} (hx : 0 < x) (hxy : x ≤ y) :
    roundDoublePos x ≤ roundDoublePos y := by
  have hy : 0 < y := lt_of_lt_of_le hx hxy
  have hlog : Int.log 2 x ≤ Int.log 2 y := Int.log_mono_right hx hxy
  rcases eq_or_lt_of_le hlog with heq | hlt
  · unfold roundDoublePos
    rw [heq]
    have harg : x * (2 : ℚ) ^ (52 - Int.log 2 y) ≤ y * (2 : ℚ) ^ (52 - Int.log 2 y) :=
      mul_le_mul_of_nonneg_right hxy (zpow_two_pos _).le
    exact mul_le_mul_of_nonneg_right
      (by exact_mod_cast rndHalfEven_mono harg) (zpow_two_pos _).le
  · calc roundDoublePos x ≤ (2 : ℚ) ^ (Int.log 2 x + 1) := roundDoublePos_le x
      _ ≤ (2 : ℚ) ^ (Int.log 2 y) := by
          apply zpow_le_zpow_right₀ (by norm_num : (1 : ℚ) ≤ 2)
          omega
      _ ≤ roundDoublePos y := le_roundDoublePos hy

lemma roundDouble_mono {x y : ℚ} (hx : 0 ≤ x) (hxy : x ≤ y) :
    roundDouble x ≤ roundDouble y := by
  unfold roundDouble
  rw [if_neg (not_lt.mpr hx), if_neg (not_lt.mpr (le_trans hx hxy))]
  rcases eq_or_lt_of_le hx with heq | hpos
  · rw [← heq]
    have h0 : roundDoublePos 0 = 0 := by
      unfold roundDoublePos rndHalfEven
      norm_num
    rw [h0]
    exact roundDoublePos_nonneg (le_trans hx hxy)
  · exact roundDoublePos_mono hpos hxy

lemma roundDouble_one : roundDouble 1 = 1 :=
  roundDouble_eval 1 4503599627370496 1 0 4503599627370496 4503599627370496
    (by norm_num) (by norm_num) (by norm_num) (by norm_num) (by norm_num)
    (by norm_num) (Or.inl ⟨by norm_num, rfl⟩) (by norm_num)

lemma roundDouble_hundred : roundDouble 100 = 100 :=
  roundDouble_eval 100 7036874417766400 100 6 7036874417766400 7036874417766400
    (by norm_num) (by norm_num) (by norm_num) (by norm_num) (by norm_num)
    (by norm_num) (Or.inl ⟨by norm_num, rfl⟩) (by norm_num)

lemma progress_value_nonneg (total i : Nat) : 0 ≤ progress_value total i := by
  have h4 : (0 : ℚ) ≤ roundDouble (roundDouble ((i + 1 : ℚ) / total) * 100) :=
    roundDouble_nonneg (mul_nonneg (roundDouble_nonneg (by positivity)) (by norm_num))
  unfold progress_value pyInt
  rw [if_neg (not_lt.mpr h4)]
  exact Int.floor_nonneg.mpr h4

lemma progress_value_le_100 (total i : Nat) (hi : i < total) :
    progress_value total i ≤ 100 := by
  have htpos : (0 : ℚ) < total := by
    have h0 : 0 < total := Nat.lt_of_le_of_lt (Nat.zero_le i) hi
    exact_mod_cast h0
  have hq1 : (i + 1 : ℚ) / total ≤ 1 := by
    rw [div_le_one htpos]
    exact_mod_cast Nat.succ_le_of_lt hi
  have h2 := roundDouble_mono (by positivity) hq1
  rw [roundDouble_one] at h2
  have h3 : roundDouble ((i + 1 : ℚ) / total) * 100 ≤ 100 := by linarith
  have h4 := roundDouble_mono
    (mul_nonneg (roundDouble_nonneg (by positivity)) (by norm_num)) h3
  rw [roundDouble_hundred] at h4
  have hnn : (0 : ℚ) ≤ roundDouble (roundDouble ((i + 1 : ℚ) / total) * 100) :=
    roundDouble_nonneg (mul_nonneg (roundDouble_nonneg (by positivity)) (by norm_num))
  unfold progress_value pyInt
  rw [if_neg (not_lt.mpr hnn)]
  have hc : ((100 : ℤ) : ℚ) = (100 : ℚ) := by norm_num
  calc Int.floor (roundDouble (roundDouble ((i + 1 : ℚ) / total) * 100))
      ≤ Int.floor ((100 : ℚ)) := Int.floor_le_floor h4
    _ = 100 := by rw [← hc, Int.floor_intCast]

lemma progress_value_mono (total i : Nat) :
    progress_value total i ≤ progress_value total (i + 1) := by
  unfold progress_value
  have hcast : ((i + 1 : ℕ) : ℚ) = (i : ℚ) + 1 := by push_cast; ring
  rw [hcast]
  have h1 : ((i : ℚ) + 1) / total ≤ ((i : ℚ) + 1 + 1) / total := by
    by_cases ht : (total : ℚ) = 0
    · rw [ht, div_zero, div_zero]
    · have htpos : (0 : ℚ) < total :=
        lt_of_le_of_ne (by positivity) (Ne.symm ht)
      exact (div_le_div_iff_of_pos_right htpos).mpr (by linarith)
  have h2 := roundDouble_mono (by positivity) h1
  have h3 : roundDouble (((i : ℚ) + 1) / total) * 100 ≤
      roundDouble (((i : ℚ) + 1 + 1) / total) * 100 :=
    mul_le_mul_of_nonneg_right h2 (by norm_num)
  have h4 := roundDouble_mono
    (mul_nonneg (roundDouble_nonneg (by positivity)) (by norm_num)) h3
  have hnnA : (0 : ℚ) ≤ roundDouble (roundDouble (((i : ℚ) + 1) / total) * 100) :=
    roundDouble_nonneg (mul_nonneg (roundDouble_nonneg (by positivity)) (by norm_num))
  have hnnB : (0 : ℚ) ≤ roundDouble (roundDouble (((i : ℚ) + 1 + 1) / total) * 100) :=
    roundDouble_nonneg (mul_nonneg (roundDouble_nonneg (by positivity)) (by norm_num))
  unfold pyInt
  rw [if_neg (not_lt.mpr hnnA), if_neg (not_lt.mpr hnnB)]
  exact Int.floor_le_floor h4

/-- Evaluates `progress_value` at concrete arguments from the two
intermediate correctly rounded doubles and the final floor bracket. -/
lemma progress_value_eval (total i : Nat) (q1 r1 r2 : ℚ) (v : ℤ)
    (hq1 : ((i : ℚ) + 1) / (total : ℚ) = q1)
    (h1 : roundDouble q1 = r1)
    (h2 : roundDouble (r1 * 100) = r2)
    (hnn : (0 : ℚ) ≤ r2)
    (hv : (v : ℚ) ≤ r2) (hv2 : r2 < v + 1) :
    progress_value total i = v := by
  unfold progress_value pyInt
  rw [hq1, h1, h2, if_neg (not_lt.mpr hnn)]
  exact Int.floor_eq_iff.mpr ⟨hv, hv2⟩

/-- Counterexample to C7 as stated: in IEEE double arithmetic the
progress sequence is not strictly increasing.  Batch size 102 emits 50
after both item 51 and item 52 (`51/102` is exactly the double `0.5`,
so `0.5 * 100 = 50.0`, while `52/102 * 100 ≈ 50.98` truncates to 50),
and even at batch size 100 items 28 and 29 both emit 28 (the doubles
nearest `28/100` and `29/100` multiplied by 100 give
`28.000000000000004` and `28.999999999999996`, both truncating
to 28). -/
theorem C7_counterexample_not_strictly_increasing :
    0 < 102 ∧
    progress_value 102 50 = 50 ∧ progress_value 102 51 = 50 ∧
    progress_value 100 27 = 28 ∧ progress_value 100 28 = 28 ∧
    ¬ (progressValues 102).Chain' (· < ·) := by
  have hv50 : progress_value 102 50 = 50 :=
    progress_value_eval 102 50 (1/2) (1/2) 50 50 (by norm_num)
      (roundDouble_eval (1/2) 4503599627370496 (1/2) (-1)
        4503599627370496 4503599627370496
        (by norm_num) (by norm_num) (by norm_num) (by norm_num) (by norm_num)
        (by norm_num) (Or.inl ⟨by norm_num, rfl⟩) (by norm_num))
      (roundDouble_eval (1/2 * 100) 7036874417766400 50 5
        7036874417766400 7036874417766400
        (by norm_num) (by norm_num) (by norm_num) (by norm_num) (by norm_num)
        (by norm_num) (Or.inl ⟨by norm_num, rfl⟩) (by norm_num))
      (by norm_num) (by norm_num) (by norm_num)
  have hv51 : progress_value 102 51 = 50 :=
    progress_value_eval 102 51 (26/51) (286994093901061/562949953421312)
      (7174852347526525/140737488355328) 50 (by norm_num)
      (roundDouble_eval (26/51) (234187180623265792/51)
        (286994093901061/562949953421312) (-1)
        4591905502416976 4591905502416976
        (by norm_num) (by norm_num) (by norm_num) (by norm_num) (by norm_num)
        (by norm_num) (Or.inl ⟨by norm_num, rfl⟩) (by norm_num))
      (roundDouble_eval (286994093901061/562949953421312 * 100)
        7174852347526525 (7174852347526525/140737488355328) 5
        7174852347526525 7174852347526525
        (by norm_num) (by norm_num) (by norm_num) (by norm_num) (by norm_num)
        (by norm_num) (Or.inl ⟨by norm_num, rfl⟩) (by norm_num))
      (by norm_num) (by norm_num) (by norm_num)
  have hv27 : progress_value 100 27 = 28 :=
    progress_value_eval 100 27 (7/25) (1261007895663739/4503599627370496)
      (7881299347898369/281474976710656) 28 (by norm_num)
      (roundDouble_eval (7/25) (126100789566373888/25)
        (1261007895663739/4503599627370496) (-2)
        5044031582654955 5044031582654956
        (by norm_num) (by norm_num) (by norm_num) (by norm_num) (by norm_num)
        (by norm_num) (Or.inr ⟨by norm_num, by norm_num⟩) (by norm_num))
      (roundDouble_eval (1261007895663739/4503599627370496 * 100)
        (31525197391593475/4) (7881299347898369/281474976710656) 4
        7881299347898368 7881299347898369
        (by norm_num) (by norm_num) (by norm_num) (by norm_num) (by norm_num)
        (by norm_num) (Or.inr ⟨by norm_num, by norm_num⟩) (by norm_num))
      (by norm_num) (by norm_num) (by norm_num)
  have hv28 : progress_value 100 28 = 28 :=
    progress_value_eval 100 28 (29/100) (5224175567749775/18014398509481984)
      (8162774324609023/281474976710656) 28 (by norm_num)
      (roundDouble_eval (29/100) (130604389193744384/25)
        (5224175567749775/18014398509481984) (-2)
        5224175567749775 5224175567749775
        (by norm_num) (by norm_num) (by norm_num) (by norm_num) (by norm_num)
        (by norm_num) (Or.inl ⟨by norm_num, rfl⟩) (by norm_num))
      (roundDouble_eval (5224175567749775/18014398509481984 * 100)
        (130604389193744375/16) (8162774324609023/281474976710656) 4
        8162774324609023 8162774324609023
        (by norm_num) (by norm_num) (by norm_num) (by norm_num) (by norm_num)
        (by norm_num) (Or.inl ⟨by norm_num, rfl⟩) (by norm_num))
      (by norm_num) (by norm_num) (by norm_num)
  refine ⟨by norm_num, hv50, hv51, hv27, hv28, ?_⟩
  intro hch
  rw [List.chain'_iff_get] at hch
  have hlen : (progressValues 102).length = 102 := by simp [progressValues]
  have hg : ∀ (j : Nat) (hj : j < (progressValues 102).length),
      (progressValues 102).get ⟨j, hj⟩ = progress_value 102 j := by
    intro j hj
    simp [progressValues]
  have h50 := hch 50 (by rw [hlen]; norm_num)
  rw [hg, hg, hv50, hv51] at h50
  exact absurd h50 (lt_irrefl 50)

/-- C7 (amended): for every non-empty batch of `n` mappings the emitted
sequence of `n` values `int((i+1)/n*100)`, evaluated in IEEE double
arithmetic, is monotonically non-decreasing with every value between 0
and 100 inclusive; it is not strictly increasing in general (see the
counterexample: batch sizes 100 and 102 both repeat a value). -/
theorem C7_progress_monotone_bounded (n : Nat) (hn : 0 < n) :
    (progressValues n).Chain' (· ≤ ·) ∧
    (∀ v ∈ progressValues n, 0 ≤ v ∧ v ≤ 100) ∧
    (progressValues n).length = n ∧
    progressValues n ≠ [] := by
  refine ⟨?_, ?_, ?_, ?_⟩
  · obtain ⟨k, rfl⟩ : ∃ k, n = k + 1 := ⟨n - 1, by omega⟩
    rw [progressValues, List.chain'_map, List.chain'_range_succ]
    intro m _
    exact progress_value_mono (k + 1) m
  · intro v hv
    rw [progressValues, List.mem_map] at hv
    obtain ⟨i, hi, rfl⟩ := hv
    rw [List.mem_range] at hi
    exact ⟨progress_value_nonneg n i, progress_value_le_100 n i hi⟩
  · simp [progressValues]
  · simp only [progressValues, ne_eq, List.map_eq_nil_iff, List.range_eq_nil]
    omega

/-- Witness for the amended C7 at the concrete batch size 4
(values 25, 50, 75, 100). -/
theorem C7_progress_monotone_bounded_witness :
    (progressValues 4).Chain' (· ≤ ·) ∧
    (∀ v ∈ progressValues 4, 0 ≤ v ∧ v ≤ 100) ∧
    (progressValues 4).length = 4 ∧
    progressValues 4 ≠ [] := by
  have h := C7_progress_monotone_bounded 4 (by decide)
  exact ⟨h.1, h.2.1, h.2.2.1, h.2.2.2⟩

/-- Splits a path string at its last `/`, returning (head including the
trailing slash, basename) — the split underlying `posixpath.splitext`'s
`sepIndex` bookkeeping.  Filenames are handled as explicit character
lists. -/
def basenameSplit (p : List Char) : List Char × List Char :=
  ((p.reverse.dropWhile (fun c => c ≠ '/')).reverse,
   (p.reverse.takeWhile (fun c => c ≠ '/')).reverse)

/-- Shallow embedding of `posixpath.splitext`: an extension starts at the
last dot of the basename provided some non-dot character precedes that
dot inside the basename (so leading dots never start an extension); the
extension is that dot followed by the (dot-free) trailing characters,
written here as `'.' :: aft.reverse` where `aft` is the reversed
post-dot suffix. -/
def splitext (p : List Char) : List Char × List Char :=
  let b := (basenameSplit p).2
  let aft := b.reverse.takeWhile (fun c => c ≠ '.')
  if aft.length = b.length then (p, [])
  else
    let st := ((b.reverse.dropWhile (fun c => c ≠ '.')).drop 1).reverse
    if st.any (fun c => c ≠ '.') then
      (p.take (p.length - (aft.length + 1)), '.' :: aft.reverse)
    else (p, [])

/-- Python slicing `s[:i]` with an `int` bound: a negative bound counts
from the end of the string and clamps at zero. -/
def pySlice (l : List Char) (i : Int) : List Char :=
  if i < 0 then l.take (l.length - i.natAbs) else l.take i.toNat

/-- Step 1 of `FileOperations._validate_filename` (lines 210-214): when
the name exceeds 255 characters, truncate the stem to `255 - len(ext)`
characters (a Python slice, so a negative bound counts from the end) and
re-append the extension. -/
def truncate255 (filename : List Char) : List Char :=
  if 255 < filename.length then
    pySlice (splitext filename).1 ((255 : Int) - (splitext filename).2.length)
      ++ (splitext filename).2
  else filename

/-- The forbidden-character list of `_validate_filename` (line 217). -/
def invalidChars : List Char := ['"', '*', ':', '<', '>', '?', '|', '/', '\\']

/-- Step 2 (lines 217-219): sequentially replace each forbidden
character by `_` (each `str.replace` of a single character is a
character-wise map). -/
def replaceInvalid (filename : List Char) : List Char :=
  invalidChars.foldl (fun f c => f.map (fun x => if x = c then '_' else x)) filename

/-- The effect of the whole replacement loop on one character. -/
def replChar (c : Char) : Char := if c ∈ invalidChars then '_' else c

/-- ASCII model of the characters accepted by Python `str.isspace`. -/
def pySpaceChars : List Char := [' ', '\t', '\n', Char.ofNat 11, Char.ofNat 12, '\r']

/-- Models `str.isspace`: non-empty and all characters whitespace. -/
def pyIsSpace (l : List Char) : Bool :=
  decide (l ≠ []) && l.all (fun c => decide (c ∈ pySpaceChars))

/-- Step 3 (lines 222-223): an empty or all-whitespace name becomes the
literal `unnamed`. -/
def emptyToUnnamed (filename : List Char) : List Char :=
  if filename = [] ∨ pyIsSpace filename = true then "unnamed".toList else filename

/-- Step 4 (lines 226-227): strip leading dots one at a time; if a strip
empties the name it becomes `unnamed` (which ends the loop). -/
def stripLeadingDots : List Char → List Char
  | [] => []
  | c :: rest =>
    if c = '.' then (if rest = [] then "unnamed".toList else stripLeadingDots rest)
    else c :: rest

/-- The reserved device names of `_validate_filename` (lines 230-232). -/
def reservedNames : List (List Char) :=
  ["CON", "PRN", "AUX", "NUL",
   "COM1", "COM2", "COM3", "COM4", "COM5", "COM6", "COM7", "COM8", "COM9",
   "LPT1", "LPT2", "LPT3", "LPT4", "LPT5", "LPT6", "LPT7", "LPT8",
   "LPT9"].map String.toList

/-- Step 5 (lines 234-236): if the upper-cased extension-stripped stem is
a reserved device name, append `_renamed` to the whole name. -/
def reservedSuffix (filename : List Char) : List Char :=
  if (splitext filename).1.map Char.toUpper ∈ reservedNames then
    filename ++ "_renamed".toList
  else filename

/-- Shallow embedding of `FileOperations._validate_filename`
(src/file_operations.py, lines 199-238): the five steps in source
order. -/
def validate_filename (filename : List Char) : List Char :=
  reservedSuffix (stripLeadingDots (emptyToUnnamed (replaceInvalid
    (truncate255 filename))))

lemma takeWhile_all_eq {α} (p : α → Bool) :
    ∀ (l : List α), (∀ c ∈ l, p c = true) → l.takeWhile p = l := by
  intro l
  induction l with
  | nil => intro _; rfl
  | cons a t ih =>
    intro h
    rw [List.takeWhile_cons_of_pos (h a (by simp))]
    rw [ih (fun c hc => h c (by simp [hc]))]

lemma takeWhile_append_all {α} (p : α → Bool) (l₁ l₂ : List α)
    (h : ∀ c ∈ l₁, p c = true) :
    (l₁ ++ l₂).takeWhile p = l₁ ++ l₂.takeWhile p := by
  induction l₁ with
  | nil => simp
  | cons a t ih =>
    rw [List.cons_append, List.takeWhile_cons_of_pos (h a (by simp))]
    rw [ih (fun c hc => h c (by simp [hc]))]
    rfl

lemma dropWhile_append_all {α} (p : α → Bool) (l₁ l₂ : List α)
    (h : ∀ c ∈ l₁, p c = true) :
    (l₁ ++ l₂).dropWhile p = l₂.dropWhile p := by
  induction l₁ with
  | nil => simp
  | cons a t ih =>
    rw [List.cons_append, List.dropWhile_cons_of_pos (h a (by simp))]
    exact ih (fun c hc => h c (by simp [hc]))

lemma mem_takeWhile_pred {α} (p : α → Bool) :
    ∀ (l : List α) (c : α), c ∈ l.takeWhile p → p c = true := by
  intro l
  induction l with
  | nil => intro c hc; cases hc
  | cons a t ih =>
    intro c hc
    by_cases hp : p a = true
    · rw [List.takeWhile_cons_of_pos hp] at hc
      rcases List.mem_cons.mp hc with rfl | hc
      · exact hp
      · exact ih c hc
    · rw [List.takeWhile_cons_of_neg (by simpa using hp)] at hc
      cases hc

lemma dropWhile_head_pred_false {α} (p : α → Bool) :
    ∀ (l : List α) (x : α) (xs : List α), l.dropWhile p = x :: xs → p x = false := by
  intro l
  induction l with
  | nil => intro x xs h; cases h
  | cons a t ih =>
    intro x xs h
    by_cases hp : p a = true
    · rw [List.dropWhile_cons_of_pos hp] at h
      exact ih x xs h
    · rw [List.dropWhile_cons_of_neg (by simpa using hp)] at h
      cases h
      simpa using hp

lemma foldl_map_comm (cs : List Char) :
    ∀ (l : List Char),
      cs.foldl (fun f c => f.map (fun x => if x = c then '_' else x)) l =
      l.map (fun x => cs.foldl (fun y c => if y = c then '_' else y) x) := by
  induction cs with
  | nil => intro l; simp
  | cons c cs ih =>
    intro l
    simp only [List.foldl_cons]
    rw [ih, List.map_map]
    rfl

lemma foldl_repl_eq (x : Char) :
    invalidChars.foldl (fun y c => if y = c then '_' else y) x = replChar x := by
  by_cases hx : x ∈ invalidChars
  · fin_cases hx <;> rfl
  · simp only [invalidChars, List.mem_cons, List.not_mem_nil, or_false] at hx
    push_neg at hx
    obtain ⟨h1, h2, h3, h4, h5, h6, h7, h8, h9⟩ := hx
    simp [invalidChars, replChar, List.foldl, h1, h2, h3, h4, h5, h6, h7, h8, h9]

lemma replaceInvalid_eq_map (l : List Char) : replaceInvalid l = l.map replChar := by
  rw [replaceInvalid, foldl_map_comm]
  exact List.map_congr_left (fun x _ => foldl_repl_eq x)

lemma replChar_ne_slash (c : Char) : replChar c ≠ '/' := by
  unfold replChar
  split
  · decide
  · rename_i h
    intro he
    apply h
    rw [he]
    decide

lemma replChar_of_not_invalid (c : Char) (h : c ∉ invalidChars) : replChar c = c := by
  unfold replChar
  rw [if_neg h]

lemma splitext_concat (c : Char) (S' t : List Char)
    (hc : c ≠ '.') (hslash : '/' ∉ c :: S') (htd : '.' ∉ t) (hts : '/' ∉ t) :
    splitext ((c :: S') ++ '.' :: t) = (c :: S', '.' :: t) := by
  have hnos : ∀ x ∈ (c :: S') ++ '.' :: t, x ≠ '/' := by
    intro x hx he
    subst he
    rcases List.mem_append.mp hx with h | h
    · exact hslash h
    · rcases List.mem_cons.mp h with h | h
      · exact absurd h (by decide)
      · exact hts h
  have hb : (basenameSplit ((c :: S') ++ '.' :: t)).2 = (c :: S') ++ '.' :: t := by
    unfold basenameSplit
    simp only
    rw [takeWhile_all_eq _ _ (fun x hx => by
      rw [List.mem_reverse] at hx
      exact decide_eq_true (hnos x hx)), List.reverse_reverse]
  have hrev : ((c :: S') ++ '.' :: t).reverse =
      t.reverse ++ '.' :: (c :: S').reverse := by
    simp [List.reverse_append]
  have haft : (((c :: S') ++ '.' :: t).reverse.takeWhile (fun x => x ≠ '.')) =
      t.reverse := by
    rw [hrev, takeWhile_append_all _ _ _ (fun x hx => by
      rw [List.mem_reverse] at hx
      exact decide_eq_true (fun he => htd (he ▸ hx)))]
    rw [List.takeWhile_cons_of_neg (by simp)]
    simp
  have hdrop : (((c :: S') ++ '.' :: t).reverse.dropWhile (fun x => x ≠ '.')) =
      '.' :: (c :: S').reverse := by
    rw [hrev, dropWhile_append_all _ _ _ (fun x hx => by
      rw [List.mem_reverse] at hx
      exact decide_eq_true (fun he => htd (he ▸ hx)))]
    rw [List.dropWhile_cons_of_neg (by simp)]
  have hlenne : ¬ (t.reverse.length = ((c :: S') ++ '.' :: t).length) := by
    simp
    omega
  simp only [splitext, hb, haft, hdrop]
  rw [if_neg hlenne]
  have hst : (((('.' :: (c :: S').reverse)).drop 1).reverse) = c :: S' := by
    simp
  rw [hst]
  rw [if_pos (by
    refine List.any_eq_true.mpr ⟨c, by simp, ?_⟩
    exact decide_eq_true hc)]
  have hlen : ((c :: S') ++ '.' :: t).length - (t.reverse.length + 1) =
      (c :: S').length := by
    simp
    omega
  rw [hlen]
  rw [List.take_left]
  simp

lemma basenameSplit_append (p : List Char) :
    (basenameSplit p).1 ++ (basenameSplit p).2 = p := by
  unfold basenameSplit
  simp only
  calc (p.reverse.dropWhile (fun c => c ≠ '/')).reverse ++
        (p.reverse.takeWhile (fun c => c ≠ '/')).reverse
      = ((p.reverse.takeWhile (fun c => c ≠ '/')) ++
          (p.reverse.dropWhile (fun c => c ≠ '/'))).reverse := by
        rw [List.reverse_append]
    _ = p.reverse.reverse := by rw [List.takeWhile_append_dropWhile]
    _ = p := List.reverse_reverse p

lemma basenameSplit_no_slash (p : List Char) : '/' ∉ (basenameSplit p).2 := by
  intro hmem
  unfold basenameSplit at hmem
  simp only at hmem
  rw [List.mem_reverse] at hmem
  have := mem_takeWhile_pred _ _ '/' hmem
  simp at this

lemma splitext_ext_of_ne (p : List Char) (h : (splitext p).2 ≠ []) :
    ∃ t, (splitext p).2 = '.' :: t ∧ '.' ∉ t ∧ '/' ∉ t ∧
      p = (splitext p).1 ++ '.' :: t := by
  by_cases h1 : ((basenameSplit p).2.reverse.takeWhile (fun c => c ≠ '.')).length =
      (basenameSplit p).2.length
  · exfalso
    apply h
    simp only [splitext]
    rw [if_pos h1]
  · by_cases h2 : ((((basenameSplit p).2.reverse.dropWhile
        (fun c => c ≠ '.')).drop 1).reverse).any (fun c => c ≠ '.') = true
    · have hsp : splitext p =
          (p.take (p.length -
            (((basenameSplit p).2.reverse.takeWhile (fun c => c ≠ '.')).length + 1)),
           '.' :: ((basenameSplit p).2.reverse.takeWhile (fun c => c ≠ '.')).reverse) := by
        simp only [splitext]
        rw [if_neg h1, if_pos h2]
      set aft := (basenameSplit p).2.reverse.takeWhile (fun c => c ≠ '.') with haftdef
      have hdwne : (basenameSplit p).2.reverse.dropWhile (fun c => c ≠ '.') ≠ [] := by
        intro h0
        apply h1
        have hta := List.takeWhile_append_dropWhile
          (fun c => decide (c ≠ '.')) (basenameSplit p).2.reverse
        rw [h0, List.append_nil] at hta
        have := congrArg List.length hta
        rw [← haftdef] at this
        simpa using this
      obtain ⟨x, rest, hdw⟩ := List.exists_cons_of_ne_nil hdwne
      have hxd : x = '.' := by
        have := dropWhile_head_pred_false _ _ _ _ hdw
        simpa using this
      subst hxd
      have hsplit : aft ++ '.' :: rest = (basenameSplit p).2.reverse := by
        rw [haftdef, ← hdw]
        exact List.takeWhile_append_dropWhile _ _
      have hbre : (basenameSplit p).2 = rest.reverse ++ '.' :: aft.reverse := by
        have hcongr := congrArg List.reverse hsplit
        rw [List.reverse_reverse] at hcongr
        rw [← hcongr, List.reverse_append, List.reverse_cons, List.append_assoc,
          List.singleton_append]
      have hpdecomp : p = ((basenameSplit p).1 ++ rest.reverse) ++ '.' :: aft.reverse := by
        conv_lhs => rw [← basenameSplit_append p, hbre]
        rw [List.append_assoc]
      refine ⟨aft.reverse, by rw [hsp], ?_, ?_, ?_⟩
      · intro hdot
        rw [List.mem_reverse] at hdot
        rw [haftdef] at hdot
        have := mem_takeWhile_pred _ _ '.' hdot
        simp at this
      · intro hsl
        rw [List.mem_reverse] at hsl
        have hmem : '/' ∈ (basenameSplit p).2.reverse := by
          rw [← List.takeWhile_append_dropWhile
            (fun c => decide (c ≠ '.')) (basenameSplit p).2.reverse]
          rw [← haftdef]
          exact List.mem_append_left _ hsl
        rw [List.mem_reverse] at hmem
        exact basenameSplit_no_slash p hmem
      · rw [hsp]
        simp only
        have hlen : p.length - (aft.length + 1) =
            ((basenameSplit p).1 ++ rest.reverse).length := by
          have hl := congrArg List.length hpdecomp
          simp only [List.length_append, List.length_cons, List.length_reverse] at hl
          simp only [List.length_append, List.length_reverse]
          omega
        rw [hlen]
        calc p = ((basenameSplit p).1 ++ rest.reverse) ++ '.' :: aft.reverse := hpdecomp
          _ = (((basenameSplit p).1 ++ rest.reverse) ++ '.' :: aft.reverse).take
                ((basenameSplit p).1 ++ rest.reverse).length ++ '.' :: aft.reverse := by
              rw [List.take_left]
          _ = p.take (((basenameSplit p).1 ++ rest.reverse).length) ++
                '.' :: aft.reverse := by
              rw [← hpdecomp]
    · exfalso
      apply h
      simp only [splitext]
      rw [if_neg h1, if_neg h2]

/-- A 302-character name whose extension itself is 301 characters long. -/
def longExtName : List Char := 'a' :: '.' :: List.replicate 300 'b'

set_option maxRecDepth 100000 in
/-- Counterexample to C6 as stated: for this input of length 302 > 255,
the truncation step's `255 - len(ext)` is negative, the Python slice
empties the stem, and the leading-dot strip then deletes the extension
dot: the output is 300 characters long (not ≤ 255) and its extension is
empty (the input's extension is not). -/
theorem C6_counterexample_long_extension :
    255 < longExtName.length ∧
    (validate_filename longExtName).length = 300 ∧
    ¬ ((validate_filename longExtName).length ≤ 255 ∧
       (splitext (validate_filename longExtName)).2 = (splitext longExtName).2) := by
  refine ⟨by decide, by decide, ?_⟩
  intro hcl
  have := hcl.1
  revert this
  decide

/-- C6 (amended): for an input longer than 255 characters the sanitizer
output is at most 255 characters with the extension preserved, provided
the extension is non-empty, at most 254 characters, free of forbidden
characters, the truncated-and-replaced name starts with a character that
is neither a dot nor whitespace, and the reserved-name suffix does not
fire on it.  (Each hypothesis excludes a genuine failure mode of the
code: an over-long extension empties the stem, a leading dot lets the
dot-stripping loop reach the extension, forbidden characters inside the
extension are rewritten, and the reserved-name suffix re-lengthens the
name beyond 255.) -/
theorem C6_truncation_bounded_extension_preserved (f : List Char)
    (hlen : 255 < f.length)
    (hext_ne : (splitext f).2 ≠ [])
    (hext_len : (splitext f).2.length ≤ 254)
    (hext_clean : ∀ c ∈ (splitext f).2, c ∉ invalidChars)
    (hhead : ∀ c, (replaceInvalid (truncate255 f)).head? = some c →
      c ≠ '.' ∧ c ∉ pySpaceChars)
    (hres : (splitext (replaceInvalid (truncate255 f))).1.map Char.toUpper ∉
      reservedNames) :
    (validate_filename f).length ≤ 255 ∧
    (splitext (validate_filename f)).2 = (splitext f).2 := by
  obtain ⟨t, het, htd, hts, hdecomp⟩ := splitext_ext_of_ne f hext_ne
  have hflen : f.length = (splitext f).1.length + (t.length + 1) := by
    have := congrArg List.length hdecomp
    simpa using this
  have htlen : t.length + 1 ≤ 254 := by
    rw [het] at hext_len
    simpa using hext_len
  have hk : ((255 : Int) - (('.' :: t : List Char).length : Int)).toNat =
      254 - t.length := by
    simp
    omega
  have htr : truncate255 f = (splitext f).1.take (254 - t.length) ++ '.' :: t := by
    unfold truncate255
    rw [if_pos hlen, het]
    unfold pySlice
    rw [if_neg (by simp; omega), hk]
  set S := ((splitext f).1.take (254 - t.length)).map replChar with hSdef
  have hid : ∀ c ∈ t, replChar c = c := fun c hc =>
    replChar_of_not_invalid c (hext_clean c (by
      rw [het]
      exact List.mem_cons_of_mem _ hc))
  have hmapt : t.map replChar = t := (List.map_congr_left hid).trans (List.map_id t)
  have hrepl : replaceInvalid (truncate255 f) = S ++ '.' :: t := by
    rw [htr, replaceInvalid_eq_map, List.map_append, List.map_cons,
      replChar_of_not_invalid '.' (by decide), hmapt, hSdef]
  have hstemlen : 254 - t.length ≤ (splitext f).1.length := by omega
  have hSlen : S.length = 254 - t.length := by
    rw [hSdef, List.length_map, List.length_take, min_eq_left hstemlen]
  have hS_ne : S ≠ [] := by
    intro h0
    rw [h0] at hSlen
    simp at hSlen
    omega
  obtain ⟨c, S', hSc⟩ := List.exists_cons_of_ne_nil hS_ne
  have hg : replaceInvalid (truncate255 f) = c :: (S' ++ '.' :: t) := by
    rw [hrepl, hSc]
    rfl
  obtain ⟨hcd, hcs⟩ := hhead c (by rw [hg]; rfl)
  have h3 : emptyToUnnamed (replaceInvalid (truncate255 f)) =
      replaceInvalid (truncate255 f) := by
    rw [hg]
    unfold emptyToUnnamed
    rw [if_neg]
    intro hor
    rcases hor with h0 | h0
    · exact List.noConfusion h0
    · unfold pyIsSpace at h0
      simp [List.all_cons] at h0
      exact hcs h0.1
  have h4 : stripLeadingDots (replaceInvalid (truncate255 f)) =
      replaceInvalid (truncate255 f) := by
    rw [hg]
    unfold stripLeadingDots
    rw [if_neg hcd]
  have h5 : validate_filename f = replaceInvalid (truncate255 f) := by
    unfold validate_filename
    rw [h3, h4]
    unfold reservedSuffix
    rw [if_neg hres]
  constructor
  · rw [h5, replaceInvalid_eq_map, List.length_map, htr]
    simp only [List.length_append, List.length_take, List.length_cons]
    omega
  · rw [h5, hrepl, hSc]
    have hslash : '/' ∉ c :: S' := by
      intro hmem
      rw [← hSc, hSdef] at hmem
      rcases List.mem_map.mp hmem with ⟨x, _, hx⟩
      exact replChar_ne_slash x hx
    rw [splitext_concat c S' t hcd hslash htd hts, het]

/-- A 304-character name with the well-behaved extension `.txt`. -/
def longTxtName : List Char := List.replicate 300 'x' ++ '.' :: "txt".toList

set_option maxRecDepth 100000 in
/-- Witness for the amended C6: the 304-character `xxx…x.txt` sanitizes
to 255 characters with the `.txt` extension preserved. -/
theorem C6_truncation_bounded_extension_preserved_witness :
    (validate_filename longTxtName).length ≤ 255 ∧
    (splitext (validate_filename longTxtName)).2 = (splitext longTxtName).2 := by
  have hh : (replaceInvalid (truncate255 longTxtName)).head? = some 'x' := by decide
  refine C6_truncation_bounded_extension_preserved longTxtName (by decide) (by decide)
    (by decide) (by decide) ?_ (by decide)
  intro c hc
  rw [hh] at hc
  cases hc
  exact ⟨by decide, by decide⟩

/-- Character comparison of the case-sensitive branch (`str.replace`). -/
def csEq (a b : Char) : Bool := a == b

/-- Character comparison modelling `re.IGNORECASE` matching of the
escaped literal pattern (case folding via `Char.toLower`). -/
def ciEq (a b : Char) : Bool := a.toLower == b.toLower

/-- Does `find` match at the head of `s`, character-wise under `eqv`? -/
def matchesAt (eqv : Char → Char → Bool) : List Char → List Char → Bool
  | [], _ => true
  | _ :: _, [] => false
  | a :: f, b :: s => eqv a b && matchesAt eqv f s

/-- Is there a position of `s` (including its end) where `find`
matches? -/
def occursIn (eqv : Char → Char → Bool) (find : List Char) : List Char → Bool
  | [] => matchesAt eqv find []
  | c :: rest => matchesAt eqv find (c :: rest) || occursIn eqv find rest

/-- Tokens of a parsed `re.sub` replacement template: a literal
character, or a reference to group 0 (the whole match). -/
inductive TemplTok where
  | lit (c : Char)
  | group0
deriving DecidableEq

/-- The single-character escapes recognised inside an `re.sub`
replacement template (`sre_parse.ESCAPES`). -/
def templCharEscape (c : Char) : Option Char :=
  if c = 'n' then some '\n'
  else if c = 't' then some '\t'
  else if c = 'r' then some '\r'
  else if c = 'v' then some (Char.ofNat 11)
  else if c = 'f' then some (Char.ofNat 12)
  else if c = 'a' then some (Char.ofNat 7)
  else if c = 'b' then some (Char.ofNat 8)
  else if c = '\\' then some '\\'
  else none

/-- Parses an `re.sub` replacement template against a pattern produced
by `re.escape`, which has no capture group other than group 0: ordinary
characters pass through, the recognised character escapes are decoded,
`\g<0>` inserts the whole match, and a backslash before a character
that is neither alphanumeric nor `g` keeps both characters.  Everything
else raises `re.error` in the program — a trailing backslash, a group
reference (`\1`…`\99`, `\g<name>`) into the group-less pattern, or an
unknown ASCII-letter escape — and is modelled as `none`.  (Octal
escapes `\0…` and spellings of group 0 with extra digits are
conservatively mapped to `none` as well; no theorem below depends on
them.) -/
def parseTemplate : List Char → Option (List TemplTok)
  | [] => some []
  | '\\' :: 'g' :: '<' :: '0' :: '>' :: rest =>
    (parseTemplate rest).map (fun ts => TemplTok.group0 :: ts)
  | '\\' :: 'g' :: _ => none
  | '\\' :: [] => none
  | '\\' :: c :: rest =>
    match templCharEscape c with
    | some e => (parseTemplate rest).map (fun ts => TemplTok.lit e :: ts)
    | none =>
      if c.isAlphanum then none
      else (parseTemplate rest).map
        (fun ts => TemplTok.lit '\\' :: TemplTok.lit c :: ts)
  | c :: rest => (parseTemplate rest).map (fun ts => TemplTok.lit c :: ts)

/-- Expands a parsed template at one match: literal tokens produce
their character, a group-0 token inserts the matched text. -/
def applyTemplate (toks : List TemplTok) (matched : List Char) : List Char :=
  toks.foldr
    (fun t acc =>
      match t with
      | TemplTok.lit c => c :: acc
      | TemplTok.group0 => matched ++ acc) []

/-- Leftmost, non-overlapping replace-all of `find` under the character
comparison `eqv`, inserting `rep matched` at each match, where
`matched` is the matched slice of the subject: the common engine of
`str.replace(find, repl)` (`rep` constant) and
`pattern.sub(repl, filename)` (`rep` expands the replacement template
against the match).  As in Python, an empty `find` matches before every
character and at the very end. -/
def subAllF (eqv : Char → Char → Bool) (find : List Char)
    (rep : List Char → List Char) : List Char → List Char
  | [] => if matchesAt eqv find [] then rep [] else []
  | c :: rest =>
    if matchesAt eqv find (c :: rest) then
      match find with
      | [] => rep [] ++ c :: subAllF eqv [] rep rest
      | _ :: f' => rep ((c :: rest).take find.length) ++
          subAllF eqv find rep (rest.drop f'.length)
    else c :: subAllF eqv find rep rest
termination_by s => s.length
decreasing_by
  · simp
  · simp [List.length_drop]
    omega
  · simp

/-- `str.replace(find, repl)`: exact matching, the replacement inserted
as-is — Python's `str.replace` performs no template processing. -/
def str_replace (s find repl : List Char) : List Char :=
  subAllF csEq find (fun _ => repl) s

/-- `re.compile(re.escape(find), re.IGNORECASE).sub(repl, s)`: the
replacement string is parsed as a template (backslash escapes, group
references); a malformed template raises `re.error`, modelled as
`none`. -/
def re_sub_escaped_ci (find repl s : List Char) : Option (List Char) :=
  (parseTemplate repl).map (fun toks => subAllF ciEq find (applyTemplate toks) s)

/-- Shallow embedding of `FileOperations.replace_string`
(src/file_operations.py, lines 72-96): split off the filename (last
path component), replace case-sensitively (`str.replace`, replacement
taken verbatim) or case-insensitively (`re.sub` of the escaped find
string with `IGNORECASE`, replacement processed as a template), then
sanitize the result.  `none` models an uncaught `re.error` raised by a
malformed replacement template in the case-insensitive branch. -/
def replace_string (file_path : FPath) (find_str replace_str : List Char)
    (case_sensitive : Bool) : Option (List Char) :=
  let filename := (file_path.getLast?.getD "").toList
  if case_sensitive then
    some (validate_filename (str_replace filename find_str replace_str))
  else
    (re_sub_escaped_ci find_str replace_str filename).map validate_filename

lemma matchesAt_le_length (eqv : Char → Char → Bool) :
    ∀ (find s : List Char), matchesAt eqv find s = true → find.length ≤ s.length := by
  intro find
  induction find with
  | nil => intro s _; simp
  | cons a f ih =>
    intro s h
    cases s with
    | nil => simp [matchesAt] at h
    | cons b s' =>
      simp only [matchesAt, Bool.and_eq_true] at h
      simpa using Nat.succ_le_succ (ih s' h.2)

lemma matchesAt_ci_congr (find2 find : List Char)
    (h : find2.map Char.toLower = find.map Char.toLower) :
    ∀ s, matchesAt ciEq find2 s = matchesAt ciEq find s := by
  induction find2 generalizing find with
  | nil =>
    intro s
    have : find = [] := by
      have := congrArg List.length h
      simpa using (List.length_eq_zero.mp (by simpa using this.symm))
    rw [this]
  | cons a f2 ih =>
    intro s
    cases find with
    | nil => simp at h
    | cons b f =>
      simp only [List.map_cons, List.cons.injEq] at h
      cases s with
      | nil => rfl
      | cons c s' =>
        simp only [matchesAt, ciEq, h.1, ih f h.2 s']

lemma matchesAt_ci_lower (find : List Char) :
    ∀ s, matchesAt ciEq find s = true →
      (s.take find.length).map Char.toLower = find.map Char.toLower := by
  induction find with
  | nil => intro s _; simp
  | cons a f ih =>
    intro s h
    cases s with
    | nil => simp [matchesAt] at h
    | cons b s' =>
      simp only [matchesAt, Bool.and_eq_true, ciEq, beq_iff_eq] at h
      simp only [List.length_cons, List.take_succ_cons, List.map_cons]
      rw [← h.1, ih s' h.2]

lemma matchesAt_cs_exact (find : List Char) :
    ∀ s, matchesAt csEq find s = true ↔ find <+: s := by
  induction find with
  | nil => intro s; simp [matchesAt, List.nil_prefix]
  | cons a f ih =>
    intro s
    cases s with
    | nil =>
      simp only [matchesAt]
      constructor
      · intro h; cases h
      · intro h; exact absurd (List.prefix_nil.mp h) (by simp)
    | cons b s' =>
      simp only [matchesAt, Bool.and_eq_true, csEq, beq_iff_eq, List.cons_prefix_cons]
      exact and_congr Iff.rfl (ih s')

lemma occursIn_cs_exact (find : List Char) :
    ∀ s, occursIn csEq find s = true ↔ find <:+: s := by
  intro s
  induction s with
  | nil =>
    simp only [occursIn]
    rw [matchesAt_cs_exact]
    constructor
    · exact fun h => h.isInfix
    · intro h
      rw [List.infix_nil] at h
      rw [h]
  | cons c rest ih =>
    simp only [occursIn, Bool.or_eq_true]
    rw [matchesAt_cs_exact, ih]
    constructor
    · rintro (h | h)
      · exact h.isInfix
      · exact List.infix_cons h
    · intro h
      exact List.infix_cons_iff.mp h

lemma subAllF_nil_s (eqv : Char → Char → Bool) (find : List Char)
    (rep : List Char → List Char) :
    subAllF eqv find rep [] = if matchesAt eqv find [] then rep [] else [] := by
  rw [subAllF.eq_def]

lemma subAllF_cons_s (eqv : Char → Char → Bool) (find : List Char)
    (rep : List Char → List Char) (c : Char) (rest : List Char) :
    subAllF eqv find rep (c :: rest) =
      if matchesAt eqv find (c :: rest) then
        match find with
        | [] => rep [] ++ c :: subAllF eqv [] rep rest
        | _ :: f' => rep ((c :: rest).take find.length) ++
            subAllF eqv find rep (rest.drop f'.length)
      else c :: subAllF eqv find rep rest := by
  rw [subAllF.eq_def]

lemma subAllF_ci_congr (find2 find : List Char) (rep : List Char → List Char)
    (h : find2.map Char.toLower = find.map Char.toLower) :
    ∀ s, subAllF ciEq find2 rep s = subAllF ciEq find rep s := by
  have hlen : find2.length = find.length := by
    have := congrArg List.length h
    simpa using this
  have main : ∀ (n : Nat) (s : List Char), s.length ≤ n →
      subAllF ciEq find2 rep s = subAllF ciEq find rep s := by
    intro n
    induction n with
    | zero =>
      intro s hs
      have hs0 : s = [] := List.length_eq_zero.mp (Nat.le_zero.mp hs)
      subst hs0
      rw [subAllF_nil_s, subAllF_nil_s, matchesAt_ci_congr find2 find h []]
    | succ n ih =>
      intro s hs
      cases s with
      | nil => rw [subAllF_nil_s, subAllF_nil_s, matchesAt_ci_congr find2 find h []]
      | cons c rest =>
        rw [subAllF_cons_s, subAllF_cons_s, matchesAt_ci_congr find2 find h (c :: rest)]
        by_cases hm : matchesAt ciEq find (c :: rest) = true
        · rw [if_pos hm, if_pos hm]
          cases find with
          | nil =>
            have h2 : find2 = [] :=
              List.length_eq_zero.mp (by rw [hlen]; rfl)
            subst h2
            dsimp only
          | cons b f =>
            cases find2 with
            | nil => simp at hlen
            | cons a f2 =>
              dsimp only
              have hf : f2.length = f.length := by simpa using hlen
              rw [hlen, hf]
              rw [ih (rest.drop f.length) (by
                have := List.length_drop f.length rest
                simp only [List.length_cons] at hs
                omega)]
        · rw [if_neg hm, if_neg hm]
          rw [ih rest (by simp only [List.length_cons] at hs; omega)]
  exact fun s => main s.length s le_rfl

lemma subAllF_no_occur (eqv : Char → Char → Bool) (find : List Char)
    (rep : List Char → List Char) :
    ∀ s, occursIn eqv find s = false → subAllF eqv find rep s = s := by
  intro s
  induction s with
  | nil =>
    intro h0
    simp only [occursIn] at h0
    rw [subAllF_nil_s, if_neg (by simp [h0])]
  | cons c rest ih =>
    intro h0
    simp only [occursIn, Bool.or_eq_false_iff] at h0
    rw [subAllF_cons_s, if_neg (by simp [h0.1]), ih h0.2]

lemma subAllF_leftmost (eqv : Char → Char → Bool) (find : List Char)
    (rep : List Char → List Char) (hne : find ≠ []) :
    ∀ s, occursIn eqv find s = true → ∃ pre mid rest,
      s = pre ++ mid ++ rest ∧
      matchesAt eqv find (mid ++ rest) = true ∧
      mid.length = find.length ∧
      (∀ p1 p2, pre = p1 ++ p2 → p2 ≠ [] →
        matchesAt eqv find (p2 ++ mid ++ rest) = false) ∧
      subAllF eqv find rep s = pre ++ rep mid ++ subAllF eqv find rep rest := by
  intro s
  induction s with
  | nil =>
    intro h0
    exfalso
    obtain ⟨a, f', rfl⟩ : ∃ a f', find = a :: f' := by
      cases find with
      | nil => exact absurd rfl hne
      | cons a f' => exact ⟨a, f', rfl⟩
    simp [occursIn, matchesAt] at h0
  | cons c rest0 ih =>
    intro h0
    by_cases hm : matchesAt eqv find (c :: rest0) = true
    · refine ⟨[], (c :: rest0).take find.length, (c :: rest0).drop find.length,
        ?_, ?_, ?_, ?_, ?_⟩
      · simp [List.take_append_drop]
      · rw [List.take_append_drop]
        exact hm
      · rw [List.length_take]
        exact min_eq_left (matchesAt_le_length eqv find _ hm)
      · intro p1 p2 hp hne2
        exact absurd (List.append_eq_nil.mp hp.symm).2 hne2
      · cases find with
        | nil => exact absurd rfl hne
        | cons a f' =>
          rw [subAllF_cons_s, if_pos hm]
          dsimp only
          simp [List.drop]
    · have hsplit : matchesAt eqv find (c :: rest0) = false ∧
          occursIn eqv find rest0 = true := by
        simp only [occursIn, Bool.or_eq_true] at h0
        rcases h0 with h0 | h0
        · exact absurd h0 hm
        · exact ⟨by simpa using hm, h0⟩
      obtain ⟨pre', mid, rest, hs, hmm2, hlen2, hleft, hsub⟩ := ih hsplit.2
      refine ⟨c :: pre', mid, rest, by rw [List.cons_append, List.cons_append, ← hs],
        hmm2, hlen2, ?_, ?_⟩
      · intro p1 p2 hp hne2
        cases p1 with
        | nil =>
          simp only [List.nil_append] at hp
          subst hp
          have hrw : (c :: pre') ++ mid ++ rest = c :: rest0 := by
            rw [List.cons_append, List.cons_append, ← hs]
          rw [hrw]
          exact hsplit.1
        | cons d p1' =>
          injection hp with hd hp'
          exact hleft p1' p2 hp' hne2
      · rw [subAllF_cons_s, if_neg hm, hsub]
        simp

lemma applyTemplate_lit_map : ∀ (repl matched : List Char),
    applyTemplate (repl.map TemplTok.lit) matched = repl := by
  intro repl matched
  induction repl with
  | nil => rfl
  | cons c rest ih =>
    unfold applyTemplate at ih ⊢
    simp only [List.map_cons, List.foldr_cons]
    rw [ih]

lemma parseTemplate_no_backslash : ∀ (repl : List Char), '\\' ∉ repl →
    parseTemplate repl = some (repl.map TemplTok.lit) := by
  intro repl
  induction repl with
  | nil => intro _; rfl
  | cons c rest ih =>
    intro h
    have hc : c ≠ '\\' := by
      intro he
      exact h (he ▸ List.mem_cons_self c rest)
    have hrest : '\\' ∉ rest := fun hm => h (List.mem_cons_of_mem c hm)
    rw [parseTemplate.eq_def]
    split
    all_goals simp_all

lemma re_sub_escaped_ci_no_backslash (find repl s : List Char)
    (hbs : '\\' ∉ repl) :
    re_sub_escaped_ci find repl s =
      some (subAllF ciEq find (fun _ => repl) s) := by
  unfold re_sub_escaped_ci
  rw [parseTemplate_no_backslash repl hbs]
  have hfun : applyTemplate (repl.map TemplTok.lit) = (fun _ : List Char => repl) :=
    funext (fun m => applyTemplate_lit_map repl m)
  rw [Option.map_some', hfun]

/-- Counterexample to C8 as stated: `re.sub` in the case-insensitive
branch processes backslash template escapes in the replacement string,
so the replacement is not in general inserted verbatim.  With find
`a`, replacement `\n` (backslash + letter n) and filename `a`, the
substitution yields the single newline character — the two-character
replacement does not occur in the output at all; with find `ab`,
replacement `\g<0>!` and filename `AB`, the match is re-inserted with
the match's own casing, yielding `AB!`, in which the find string `ab`
does not occur with its literal casing. -/
theorem C8_counterexample_template_escape :
    re_sub_escaped_ci ['a'] ['\\', 'n'] ['a'] = some ['\n'] ∧
    occursIn csEq ['\\', 'n'] ['\n'] = false ∧
    re_sub_escaped_ci ['a', 'b'] ['\\', 'g', '<', '0', '>', '!'] ['A', 'B'] =
      some ['A', 'B', '!'] ∧
    occursIn csEq ['a', 'b'] ['A', 'B', '!'] = false := by
  refine ⟨?_, by decide, ?_, by decide⟩
  · unfold re_sub_escaped_ci
    rw [show parseTemplate ['\\', 'n'] = some [TemplTok.lit '\n'] from rfl,
      Option.map_some']
    congr 1
    rw [subAllF_cons_s, if_pos (by decide)]
    dsimp only
    rw [show ([] : List Char).drop (List.length ([] : List Char)) = [] from rfl,
      subAllF_nil_s, if_neg (by decide)]
    rfl
  · unfold re_sub_escaped_ci
    rw [show parseTemplate ['\\', 'g', '<', '0', '>', '!'] =
        some [TemplTok.group0, TemplTok.lit '!'] from rfl,
      Option.map_some']
    congr 1
    rw [subAllF_cons_s, if_pos (by decide)]
    dsimp only
    rw [show (['B'] : List Char).drop (List.length (['b'] : List Char)) = []
        from rfl,
      subAllF_nil_s, if_neg (by decide)]
    rfl

/-- C8 (amended): in case-insensitive mode the replacement string is
processed as an `re.sub` template; provided it contains no backslash,
the substitution inserts it verbatim with its literal casing, depends
only on the case-folded find string, is the identity on a name without
case-insensitive occurrences, and replaces the leftmost occurrence
(and, recursively, every later one).  Case-sensitive mode
(`str.replace`) matches exactly and always inserts the replacement
verbatim.  For replacement strings containing backslashes the verbatim
claim fails — see the counterexample. -/
theorem C8_replace_case_semantics (filename find repl : List Char)
    (hne : find ≠ []) (hbs : '\\' ∉ repl) :
    re_sub_escaped_ci find repl filename =
      some (subAllF ciEq find (fun _ => repl) filename) ∧
    (∀ find2, find2.map Char.toLower = find.map Char.toLower →
      subAllF ciEq find2 (fun _ => repl) filename =
        subAllF ciEq find (fun _ => repl) filename) ∧
    (occursIn ciEq find filename = false →
      subAllF ciEq find (fun _ => repl) filename = filename) ∧
    (occursIn ciEq find filename = true → ∃ pre mid rest,
      filename = pre ++ mid ++ rest ∧
      mid.map Char.toLower = find.map Char.toLower ∧
      (∀ p1 p2, pre = p1 ++ p2 → p2 ≠ [] →
        matchesAt ciEq find (p2 ++ mid ++ rest) = false) ∧
      subAllF ciEq find (fun _ => repl) filename =
        pre ++ repl ++ subAllF ciEq find (fun _ => repl) rest) ∧
    (¬ find <:+: filename → str_replace filename find repl = filename) ∧
    (find <:+: filename → ∃ pre rest,
      filename = pre ++ find ++ rest ∧
      str_replace filename find repl = pre ++ repl ++ str_replace rest find repl) := by
  refine ⟨re_sub_escaped_ci_no_backslash find repl filename hbs,
    fun f2 h2 => subAllF_ci_congr f2 find (fun _ => repl) h2 filename,
    subAllF_no_occur ciEq find (fun _ => repl) filename, ?_, ?_, ?_⟩
  · intro hocc
    obtain ⟨pre, mid, rest, hs, hm, hlen, hleft, hsub⟩ :=
      subAllF_leftmost ciEq find (fun _ => repl) hne filename hocc
    refine ⟨pre, mid, rest, hs, ?_, hleft, hsub⟩
    have hlow := matchesAt_ci_lower find (mid ++ rest) hm
    rw [← hlen, List.take_left] at hlow
    exact hlow
  · intro hni
    unfold str_replace
    apply subAllF_no_occur
    cases hoc : occursIn csEq find filename
    · rfl
    · exact absurd ((occursIn_cs_exact find filename).mp hoc) hni
  · intro hinf
    have hocc : occursIn csEq find filename = true :=
      (occursIn_cs_exact find filename).mpr hinf
    obtain ⟨pre, mid, rest, hs, hm, hlen, hleft, hsub⟩ :=
      subAllF_leftmost csEq find (fun _ => repl) hne filename hocc
    have hmid : mid = find := by
      obtain ⟨tail, htail⟩ := (matchesAt_cs_exact find (mid ++ rest)).mp hm
      have h1 : (mid ++ rest).take find.length = find := by
        rw [← htail]
        exact List.take_left _ _
      rw [← hlen, List.take_left] at h1
      exact h1
    subst hmid
    exact ⟨pre, rest, hs, hsub⟩

/-- Witness for the amended C8 on `xAby` with find `ab` and the
backslash-free replacement `XY`: the case-insensitive engine parses the
template successfully and rewrites the occurrence `Ab`, inserting `XY`
verbatim, while the case-sensitive pass leaves the name unchanged. -/
theorem C8_replace_case_semantics_witness :
    re_sub_escaped_ci ['a', 'b'] ['X', 'Y'] ['x', 'A', 'b', 'y'] =
      some (subAllF ciEq ['a', 'b'] (fun _ => ['X', 'Y']) ['x', 'A', 'b', 'y']) ∧
    (∃ pre mid rest, (['x', 'A', 'b', 'y'] : List Char) = pre ++ mid ++ rest ∧
      mid.map Char.toLower = (['a', 'b'] : List Char).map Char.toLower ∧
      (∀ p1 p2, pre = p1 ++ p2 → p2 ≠ [] →
        matchesAt ciEq ['a', 'b'] (p2 ++ mid ++ rest) = false) ∧
      subAllF ciEq ['a', 'b'] (fun _ => ['X', 'Y']) ['x', 'A', 'b', 'y'] =
        pre ++ ['X', 'Y'] ++ subAllF ciEq ['a', 'b'] (fun _ => ['X', 'Y']) rest) ∧
    str_replace ['x', 'A', 'b', 'y'] ['a', 'b'] ['X', 'Y'] = ['x', 'A', 'b', 'y'] := by
  have h := C8_replace_case_semantics ['x', 'A', 'b', 'y'] ['a', 'b'] ['X', 'Y']
    (by decide) (by decide)
  refine ⟨h.1, h.2.2.2.1 (by decide), ?_⟩
  apply h.2.2.2.2.1
  intro hinf
  have hfalse : occursIn csEq ['a', 'b'] ['x', 'A', 'b', 'y'] = false := by decide
  have htrue := (occursIn_cs_exact ['a', 'b'] ['x', 'A', 'b', 'y']).mpr hinf
  rw [hfalse] at htrue
  cases htrue
